import Mathlib

/-!
# influxdb-migrate, package `from092`: a shallow embedding of the on-disk decoder

The development embeds `src/from092/from092.go`:

* Go `string` and `[]byte` values are lists of bytes (`Bytes`; a byte is a number below 256);
  a slice has capacity equal to its length, so every out-of-range slice expression panics;
* a Go `map` is an association list with overwrite-on-insert (`mapSet`) and lookup (`mapGet`);
  the order of the list is the order in which a `range` loop visits the map;
* a call that can return normally, return an error, panic, or end the process through
  `log.Fatalf` produces an `Outcome`;
* the decoders of other packages (protobuf, snappy, JSON) are parameters (`Codecs`), a shard
  file is the content of its bolt buckets (`Shard`), and a run of `GetPoints` is the sequence
  of its channel operations in program order (`Event`);
* a `range` over the `escapes` map takes its visiting order as an argument.
-/

set_option maxRecDepth 8192

namespace From092

/-! ## Go values -/

/-- Go `string` / `[]byte`: a sequence of bytes. -/
abbrev Bytes := List Nat

/-- UTF-8 encoding of one character, as the Go compiler stores string literals. -/
def utf8 (c : Char) : Bytes :=
  let n := c.toNat
  if n < 128 then [n]
  else if n < 2048 then [192 + n / 64, 128 + n % 64]
  else if n < 65536 then [224 + n / 4096, 128 + n / 64 % 64, 128 + n % 64]
  else [240 + n / 262144, 128 + n / 4096 % 64, 128 + n / 64 % 64, 128 + n % 64]

/-- The bytes of a Go string literal. -/
def str (s : String) : Bytes := (s.toList.map utf8).flatten

/-- Go map assignment `m[k] = v`. -/
def mapSet {β : Type} (m : List (Bytes × β)) (k : Bytes) (v : β) : List (Bytes × β) :=
  match m with
  | [] => [(k, v)]
  | (k0, v0) :: rest => if k0 = k then (k, v) :: rest else (k0, v0) :: mapSet rest k v

/-- Go map lookup `v, ok := m[k]`. -/
def mapGet {β : Type} (m : List (Bytes × β)) (k : Bytes) : Option β :=
  match m with
  | [] => none
  | (k0, v0) :: rest => if k0 = k then some v0 else mapGet rest k

/-- The keys of a Go map. -/
def mapKeys {β : Type} (m : List (Bytes × β)) : List Bytes := m.map Prod.fst

/-- How a call ends. -/
inductive Outcome (α : Type) where
  /-- normal return with a nil error -/
  | ok (ret : α)
  /-- normal return with a non-nil error (and the named result as it stood) -/
  | error (ret : α)
  /-- a run-time panic that no deferred function recovered: the process aborts -/
  | crash
  /-- the call ended the process with log.Fatalf -/
  | fatal
  deriving DecidableEq, Repr

/-! ## Big-endian helpers (lines 146-152, `encoding/binary`) -/

/-- Big-endian value of a byte sequence (`binary.BigEndian.Uint16/32/64` on 2/4/8 bytes). -/
def beUint (bs : Bytes) : Nat := bs.foldl (fun acc x => acc * 256 + x) 0

/-- Big-endian encoding of `v` on `n` bytes (`binary.BigEndian.PutUint64` for `n = 8`). -/
def bePut : Nat → Nat → Bytes
  | 0, _ => []
  | n + 1, v => bePut n (v / 256) ++ [v % 256]

/-- Source `btou64`: the first eight bytes, big-endian. -/
def btou64 (b : Bytes) : Nat := beUint (b.take 8)

/-- Source `u64tob`. -/
def u64tob (v : Nat) : Bytes := bePut 8 v

/-- Go conversion `int64(u)` of a `uint64`: two-complement reinterpretation. -/
def int64 (u : Nat) : Int :=
  let w : Nat := u % 2 ^ 64
  if w < 2 ^ 63 then (w : Int) else (w : Int) - 2 ^ 64

/-- Go conversion `uint64(i)` of an `int64`. -/
def uint64 (i : Int) : Nat := (i % 2 ^ 64).toNat

/-! ## Field schema and field values (lines 40-49, 321-323) -/

/-- The `influxql.DataType` constants the decoder distinguishes; every other value of the
integer type is `Other`. -/
inductive DataType where
  | Float | Integer | Boolean | String
  | Other (code : Nat)
  deriving DecidableEq, Repr

/-- Source `field` (its member `Type` is spelled `Typ`). -/
structure field where
  ID : Nat
  Name : Bytes
  Typ : DataType
  deriving DecidableEq, Repr

/-- Source `measurementFields`: `Fields map[string]*field`. -/
structure measurementFields where
  Fields : List (Bytes × field)
  deriving DecidableEq, Repr

/-- A decoded field value (`interface{}` holding float64, int64, bool or string). A float64 is
represented by its IEEE-754 bit pattern, which `math.Float64frombits` reinterprets. -/
inductive Value where
  | Float (bits : Nat)
  | Integer (v : Int)
  | Boolean (b : Bool)
  | String (s : Bytes)
  deriving DecidableEq, Repr

/-- The schema type of a decoded value. -/
def Value.typ : Value → DataType
  | .Float _ => .Float
  | .Integer _ => .Integer
  | .Boolean _ => .Boolean
  | .String _ => .String

/-- The result map of `getfields`. -/
abbrev FieldMap := List (Bytes × Value)

/-! ## `getfields` (lines 154-235) -/

/-- The inner loop of lines 162-167: the first field, in iteration order, whose ID is `fid`. -/
def findField (m : measurementFields) (fid : Nat) : Option field :=
  (m.Fields.find? (fun e => e.2.ID == fid)).map Prod.snd

/-- Unwinding after a run-time panic in `getfields` with `defers` deferred closures registered
(one per String record decoded so far, lines 195-224) and `b` the current value of the
variable the closures capture. Each closure recovers the panic and then evaluates
`string(b[3:])` (line 197), which panics again when `len(b) < 3`; the next closure then
runs. A closure that completes sets `err`, and the function returns `(ret, err)`. -/
def unwind : Nat → Bytes → FieldMap → Outcome FieldMap
  | 0, _, _ => .crash
  | n + 1, b, ret => if b.length < 3 then unwind n b ret else .error ret

/-- The `for` loop of `getfields` (lines 156-233). `fuel` bounds the number of iterations;
every iteration that continues consumes at least two bytes, so `len(b)` is enough
(`getfieldsLoop_fuel`). -/
def getfieldsLoop (m : measurementFields) : Nat → Bytes → FieldMap → Nat → Outcome FieldMap
  | 0, _, ret, _ => .ok ret
  | fuel + 1, b, ret, defers =>
    match b with
    | [] => .ok ret
    | fid :: _ =>
      match findField m fid with
      | none => .ok ret
      | some f =>
        if f.ID = 0 then .fatal
        else
          match f.Typ with
          | .Float =>
            if 9 ≤ b.length then
              getfieldsLoop m fuel (b.drop 9)
                (mapSet ret f.Name (.Float (beUint ((b.take 9).drop 1)))) defers
            else unwind defers b ret
          | .Integer =>
            if 9 ≤ b.length then
              getfieldsLoop m fuel (b.drop 9)
                (mapSet ret f.Name (.Integer (int64 (beUint ((b.take 9).drop 1))))) defers
            else unwind defers b ret
          | .Boolean =>
            if 2 ≤ b.length then
              getfieldsLoop m fuel (b.drop 2)
                (mapSet ret f.Name (.Boolean (decide (b.getD 1 0 = 1)))) defers
            else unwind defers b ret
          | .String =>
            if 3 ≤ b.length then
              let size := beUint ((b.take 3).drop 1) % 65536
              let hi := (size + 3) % 65536
              if 3 ≤ hi ∧ hi ≤ b.length then
                getfieldsLoop m fuel (b.drop hi)
                  (mapSet ret f.Name (.String ((b.take hi).drop 3))) (defers + 1)
              else unwind (defers + 1) b ret
            else unwind defers b ret
          | .Other _ => .fatal

/-- Source `getfields`. -/
def getfields (_mname : Bytes) (m : measurementFields) (b : Bytes) : Outcome FieldMap :=
  getfieldsLoop m b.length b [] 0

/-! ## Catalog replay: `applycommand` (lines 244-319) -/

/-- Modelled from the spec: `database.RetentionPolicy` of package `database`, whose declaration
is not among the sources; the members are the ones `applycommand` reads and writes
(spec section 3: name, duration, replica count). -/
structure RetentionPolicy where
  Name : Bytes
  Duration : Int
  ReplicaN : Nat
  deriving DecidableEq, Repr

/-- Modelled from the spec: `database.Database` of package `database`, whose declaration is not
among the sources; the members are the ones `applycommand` and `GetPoints` read and write
(spec section 3: name, policies, default policy). -/
structure Database where
  Name : Bytes
  Policies : List RetentionPolicy
  DefaultRetentionPolicy : Bytes
  deriving DecidableEq, Repr

/-- The decoded log command: `cmd.GetType()` together with the extension of that type
(the generated protobuf declarations are not among the sources). `Other` is any type the
`switch` of `applycommand` has no case for. -/
inductive Command where
  | CreateDatabase (name : Bytes)
  | DropDatabase (name : Bytes)
  | CreateRetentionPolicy (database : Bytes) (name : Bytes) (duration : Int) (replicaN : Nat)
  | DropRetentionPolicy (database : Bytes) (name : Bytes)
  | SetDefaultRetentionPolicy (database : Bytes) (name : Bytes)
  | Other
  deriving DecidableEq, Repr

/-- Go `strings.HasSuffix`. -/
def HasSuffix (s suffix : Bytes) : Bool := suffix.isSuffixOf s

/-- The zero value of `database.Database`, which `make` fills a new slice with. -/
def zeroDatabase : Database := ⟨[], [], []⟩

/-- The zero value of `database.RetentionPolicy`. -/
def zeroRetentionPolicy : RetentionPolicy := ⟨[], 0, 0⟩

/-- Lines 261-268: `make([]database.Database, len(dbs)-1)` followed by the appending loop. -/
def dropDatabase (dbs : List Database) (name : Bytes) : List Database :=
  if 0 < dbs.length then
    dbs.foldl
      (fun updateddbs db =>
        if db.Name ≠ name then updateddbs ++ [⟨db.Name, [], []⟩] else updateddbs)
      (List.replicate (dbs.length - 1) zeroDatabase)
  else dbs

/-- Lines 272-286: the loop over `updateddbs`; `continue` on an internal policy name, `break`
after the first append. -/
def createRetentionPolicy (database : Bytes) (rp : RetentionPolicy) :
    List Database → List Database
  | [] => []
  | db :: rest =>
    if db.Name = database then
      if HasSuffix rp.Name (str "internal") then db :: createRetentionPolicy database rp rest
      else { db with Policies := db.Policies ++ [rp] } :: rest
    else db :: createRetentionPolicy database rp rest

/-- Lines 292-304: the policy list is replaced by `make(..., len-1)` and the loop then ranges
over that new list, appending a copy of every element whose name differs from `name`. -/
def dropPolicies (policies : List RetentionPolicy) (name : Bytes) : List RetentionPolicy :=
  if 0 < policies.length then
    let fresh := List.replicate (policies.length - 1) zeroRetentionPolicy
    fresh.foldl
      (fun acc rp => if rp.Name ≠ name then acc ++ [⟨rp.Name, rp.Duration, rp.ReplicaN⟩] else acc)
      fresh
  else policies

/-- Lines 290-307: the first database named `database` has its policy list rewritten. -/
def dropRetentionPolicy (database name : Bytes) : List Database → List Database
  | [] => []
  | db :: rest =>
    if db.Name = database then { db with Policies := dropPolicies db.Policies name } :: rest
    else db :: dropRetentionPolicy database name rest

/-- Lines 311-316: the first database named `database` gets the default policy. -/
def setDefaultRetentionPolicy (database name : Bytes) : List Database → List Database
  | [] => []
  | db :: rest =>
    if db.Name = database then { db with DefaultRetentionPolicy := name } :: rest
    else db :: setDefaultRetentionPolicy database name rest

/-- Source `applycommand`; `none` is a payload that `proto.Unmarshal` rejects. -/
def applycommand (dbs : List Database) (cmd : Option Command) : List Database :=
  match cmd with
  | none => dbs
  | some (.CreateDatabase name) =>
    if HasSuffix name (str "internal") then dbs else dbs ++ [⟨name, [], []⟩]
  | some (.DropDatabase name) => dropDatabase dbs name
  | some (.CreateRetentionPolicy database name duration replicaN) =>
    createRetentionPolicy database ⟨name, duration, replicaN⟩ dbs
  | some (.DropRetentionPolicy database name) => dropRetentionPolicy database name dbs
  | some (.SetDefaultRetentionPolicy database name) => setDefaultRetentionPolicy database name dbs
  | some .Other => dbs

/-- The fold of `GetPoints` (lines 72-77) over the log entries, from the empty catalog. -/
def replay (log : List (Option Command)) : List Database := log.foldl applycommand []

/-! ## Measurement keys (lines 26-38, 384-401, 459-476) -/

/-- Source `replaceescaped`. -/
structure replaceescaped where
  newtoken : Bytes
  replaced : Bytes
  deriving DecidableEq, Repr

/-- Source `escapes`, in the order of the literal. A `range` over this map visits the four
entries in an unspecified order, so every loop over it takes the visiting order as an
argument. -/
def escapes : List (Bytes × replaceescaped) :=
  [ ([92, 44], ⟨[194, 167, 95, 194, 167, 97, 194, 167], [44]⟩),
    ([92, 34], ⟨[194, 167, 95, 194, 167, 98, 194, 167], [34]⟩),
    ([92, 32], ⟨[194, 167, 95, 194, 167, 99, 194, 167], [32]⟩),
    ([92, 61], ⟨[194, 167, 95, 194, 167, 100, 194, 167], [61]⟩) ]

/-- Go `strings.HasPrefix`. -/
def startsWith : Bytes → Bytes → Bool
  | _, [] => true
  | [], _ :: _ => false
  | c :: s, p :: ps => c = p && startsWith s ps

/-- The scan of `strings.Replace(s, old, new, -1)` for a non-empty `old`: the leftmost
occurrence is replaced and the scan resumes after it. `skip` counts the bytes of the current
occurrence that are still to be passed over. -/
def replaceScan (old new : Bytes) : Nat → Bytes → Bytes
  | _, [] => []
  | skip + 1, _ :: s => replaceScan old new skip s
  | 0, c :: s =>
    if startsWith (c :: s) old then new ++ replaceScan old new (old.length - 1) s
    else c :: replaceScan old new 0 s

/-- Go `strings.Replace(s, old, new, -1)` for a non-empty `old`. -/
def Replace (s old new : Bytes) : Bytes := replaceScan old new 0 s

/-- Go `strings.Split(s, sep)` for a one-byte separator. -/
def Split (s : Bytes) (sep : Nat) : List Bytes :=
  match s with
  | [] => [[]]
  | c :: cs =>
    if c = sep then [] :: Split cs sep
    else
      match Split cs sep with
      | [] => [[c]]
      | h :: t => (c :: h) :: t

/-- Lines 384-387 / 459-462: the forward substitution, visiting `escapes` in `order`. -/
def escapeName (order : List (Bytes × replaceescaped)) (bname : Bytes) : Bytes :=
  order.foldl (fun bnameescaped e => Replace bnameescaped e.1 e.2.newtoken) bname

/-- Lines 397-399 / 472-474: the reverse substitution, visiting `escapes` in `order`. -/
def unescapeTag (order : List (Bytes × replaceescaped)) (tag : Bytes) : Bytes :=
  order.foldl (fun tag e => Replace tag e.2.newtoken e.2.replaced) tag

/-- Lines 393-401 / 468-476: the loop over `bnamesplitted[1:]`. `orders i` is the visiting
order of the reverse substitution for the segment with index `i`. `none` is the
index-out-of-range panic of `ts[1]`. -/
def tagsLoop (orders : Nat → List (Bytes × replaceescaped)) :
    Nat → List Bytes → List (Bytes × Bytes) → Option (List (Bytes × Bytes))
  | _, [], tags => some tags
  | i, seg :: rest, tags =>
    match Split seg 61 with
    | k :: v :: _ => tagsLoop orders (i + 1) rest (mapSet tags k (unescapeTag (orders i) v))
    | _ => none

/-- The two readers. -/
inductive Engine where
  | b1 | bz1
  deriving DecidableEq, Repr

/-- What a reader does with one series key. -/
inductive KeyOutcome where
  /-- the measurement has a schema and the tag loop completed -/
  | parsed (mname : Bytes) (tags : List (Bytes × Bytes))
  /-- b1, line 391: unknown measurement, logged, the bucket is passed over -/
  | skipped (mname : Bytes)
  /-- bz1, line 466: unknown measurement, log.Fatalf -/
  | fatal (mname : Bytes)
  /-- run-time panic (index out of range at `ts[1]`), not recovered by either reader -/
  | crash
  deriving DecidableEq, Repr

/-- The key handling of `getb1points` (lines 384-401, for a bucket that is not one of
fields, series, meta, wal) and of `getbz1points` (lines 459-476). `fwd` is the visiting order
of the forward substitution and `revs i` that of the reverse substitution for segment `i`. -/
def parsekey (eng : Engine) (measurements : List (Bytes × measurementFields))
    (fwd : List (Bytes × replaceescaped)) (revs : Nat → List (Bytes × replaceescaped))
    (bname : Bytes) : KeyOutcome :=
  let bnamesplitted := Split (escapeName fwd bname) 44
  let mname := bnamesplitted.headD []
  match mapGet measurements mname with
  | none =>
    match eng with
    | .b1 => .skipped mname
    | .bz1 => .fatal mname
  | some _ =>
    match tagsLoop revs 1 bnamesplitted.tail [] with
    | some tags => .parsed mname tags
    | none => .crash

/-! ## The record framing of spec section 4.3 (the input side of the decoder claims) -/

/-- Spec section 4.3, the framing of one record: `[id][8 bytes BE]` for Float and Integer,
`[id][0x00|0x01]` for Boolean, `[id][len:2 BE][bytes]` for String. -/
def frame (id : Nat) : Value → Bytes
  | .Float bits => id :: bePut 8 bits
  | .Integer v => id :: bePut 8 (uint64 v)
  | .Boolean b => [id, if b then 1 else 0]
  | .String s => id :: (bePut 2 s.length ++ s)

/-- The concatenation of the frames of a list of records (field, value). -/
def frames (recs : List (field × Value)) : Bytes :=
  (recs.map (fun r => frame r.1.ID r.2)).flatten

/-- The map that assigning each record, in order, to its field name builds. -/
def assign (ret : FieldMap) (recs : List (field × Value)) : FieldMap :=
  recs.foldl (fun acc r => mapSet acc r.1.Name r.2) ret

/-- A value that the framing can carry: a 64-bit pattern, a signed 64-bit integer, a boolean,
a string of at most `maxlen` bytes. -/
def Value.fits (maxlen : Nat) : Value → Prop
  | .Float bits => bits < 2 ^ 64
  | .Integer v => -(2 : Int) ^ 63 ≤ v ∧ v < (2 : Int) ^ 63
  | .Boolean _ => True
  | .String s => s.length ≤ maxlen

/-- A record of the schema `m`: the field is an entry of the schema and the value has the
type the field declares and fits the framing. -/
def IsRecord (m : measurementFields) (maxlen : Nat) (r : field × Value) : Prop :=
  r.1 ∈ m.Fields.map Prod.snd ∧ r.2.typ = r.1.Typ ∧ r.2.fits maxlen

/-! ## Example data -/

/-- The schema of the round-trip example: f1 Float, f2 Integer, f3 Boolean, f4 String. -/
def exampleSchema : measurementFields :=
  ⟨[ (str "f1", ⟨1, str "f1", .Float⟩), (str "f2", ⟨2, str "f2", .Integer⟩),
     (str "f3", ⟨3, str "f3", .Boolean⟩), (str "f4", ⟨4, str "f4", .String⟩) ]⟩

/-- The records of the round-trip example: f1 = 3.14 (bit pattern 0x40091EB851EB851F),
f2 = -5, f3 = true, f4 = "hi". -/
def exampleRecords : List (field × Value) :=
  [ (⟨1, str "f1", .Float⟩, .Float 4614253070214989087), (⟨2, str "f2", .Integer⟩, .Integer (-5)),
    (⟨3, str "f3", .Boolean⟩, .Boolean true), (⟨4, str "f4", .String⟩, .String (str "hi")) ]

/-! ## The escape protocol on token sequences -/

/-- The four escaped characters of the `escapes` table. -/
inductive Esc where
  | comma | quote | space | equals
  deriving DecidableEq, Repr

/-- The literal character of an escape pair. -/
def Esc.char : Esc → Nat
  | .comma => 44
  | .quote => 34
  | .space => 32
  | .equals => 61

/-- The letter that tells the four sentinels apart. -/
def Esc.letter : Esc → Nat
  | .comma => 97
  | .quote => 98
  | .space => 99
  | .equals => 100

/-- The sentinel of an escape pair. -/
def Esc.token (i : Esc) : Bytes := [194, 167, 95, 194, 167, i.letter, 194, 167]

/-- The entry of the `escapes` table for an escape pair. -/
def Esc.entry (i : Esc) : Bytes × replaceescaped := ([92, i.char], ⟨i.token, [i.char]⟩)

/-- The escape pair of a character, if it is one of the four. -/
def escOf (c : Nat) : Option Esc :=
  if c = 44 then some .comma
  else if c = 34 then some .quote
  else if c = 32 then some .space
  else if c = 61 then some .equals
  else none

/-- Writing a tag value escaped: each of `,` `"` space `=` is preceded by a backslash. -/
def escapeValue : Bytes → Bytes
  | [] => []
  | c :: s => if (escOf c).isSome then 92 :: c :: escapeValue s else c :: escapeValue s

/-- The string holds the section sign, the byte pair 0xC2 0xA7. -/
def hasSect : Bytes → Bool
  | [] => false
  | [_] => false
  | a :: b :: s => (a = 194 && b = 167) || hasSect (b :: s)

/-- A token of a key: a byte written as it is, or one of the four characters written as an
escape pair. -/
inductive Tok where
  | lit (c : Nat)
  | esc (i : Esc)
  deriving DecidableEq, Repr

/-- The bytes of a token sequence during the forward substitution: the pairs in `done` have
been replaced by their sentinel, the others still are backslash and character. -/
def renderF (done : Esc → Bool) : List Tok → Bytes
  | [] => []
  | .lit c :: ts => c :: renderF done ts
  | .esc i :: ts => (if done i then i.token else [92, i.char]) ++ renderF done ts

/-- The bytes of a token sequence during the reverse substitution: the sentinels in `done`
have been replaced by their character, the others still are sentinels. -/
def renderR (done : Esc → Bool) : List Tok → Bytes
  | [] => []
  | .lit c :: ts => c :: renderR done ts
  | .esc i :: ts => (if done i then [i.char] else i.token) ++ renderR done ts

/-- The tokens of a tag value: the four characters are escape pairs, every other byte is
literal. -/
def valueToks : Bytes → List Tok
  | [] => []
  | c :: s =>
    match escOf c with
    | some i => .esc i :: valueToks s
    | none => .lit c :: valueToks s

/-- No literal backslash stands right before a literal `,` `"` space or `=`. -/
def FwdOK : List Tok → Prop
  | [] => True
  | t :: ts => (t = .lit 92 → ∀ c, ts.head? = some (.lit c) → escOf c = none) ∧ FwdOK ts

/-- No literal byte 0xC2 stands right before a literal byte 0xA7. -/
def RevOK : List Tok → Prop
  | [] => True
  | t :: ts => (t = .lit 194 → ts.head? ≠ some (.lit 167)) ∧ RevOK ts

/-- One more pair is done. -/
def markDone (done : Esc → Bool) (i : Esc) : Esc → Bool := fun j => if j = i then true else done j

/-- The key `m,k1=e(v1),...,kn=e(vn)` of a measurement and a tag list. -/
def buildKey (m : Bytes) (tags : List (Bytes × Bytes)) : Bytes :=
  m ++ (tags.map (fun t => 44 :: (t.1 ++ 61 :: escapeValue t.2))).flatten

/-- Go `strings.Join(pieces, sep)` for a one-byte separator. -/
def Join (pieces : List Bytes) (sep : Nat) : Bytes :=
  match pieces with
  | [] => []
  | [p] => p
  | p :: q :: rest => p ++ sep :: Join (q :: rest) sep

/-- The tokens of the key of a measurement and a tag list. -/
def keyToks (m : Bytes) (tags : List (Bytes × Bytes)) : List Tok :=
  m.map Tok.lit
    ++ (tags.map (fun t => Tok.lit 44 :: (t.1.map Tok.lit ++ Tok.lit 61 :: valueToks t.2))).flatten

/-- A string free of the four characters the key syntax gives a meaning to. -/
def PlainName (s : Bytes) : Prop := 44 ∉ s ∧ 61 ∉ s ∧ 92 ∉ s ∧ hasSect s = false

/-! ## The escape codec law of spec section 8 -/

/-- The string `s` holds `pat` as a contiguous substring (Go `strings.Contains`). -/
def containsBytes : Bytes → Bytes → Bool
  | [], pat => startsWith [] pat
  | c :: s, pat => startsWith (c :: s) pat || containsBytes s pat

/-- The pipeline of the codec law: write escaped, substitute forward, split on `,` and
rejoin, split on `=` and rejoin, substitute back. -/
def roundTrip (fwd rev : List (Bytes × replaceescaped)) (s : Bytes) : Bytes :=
  unescapeTag rev (Join (Split (Join (Split (escapeName fwd (escapeValue s)) 44) 44) 61) 61)

/-! ## Catalog invariants -/

/-- No database and no retention policy of the catalog has a name that ends in `internal`. -/
def NoInternal (dbs : List Database) : Prop :=
  ∀ db ∈ dbs, HasSuffix db.Name (str "internal") = false
    ∧ ∀ rp ∈ db.Policies, HasSuffix rp.Name (str "internal") = false

/-! ## Shards, points and the two readers (lines 360-552) -/

/-- The members of `client.Point` (package `client` of the influxdb repository) that the
readers set; `Time` is the argument of `time.Unix(0, ns)`, nanoseconds since the epoch. -/
structure Point where
  Measurement : Bytes
  Time : Int
  Tags : List (Bytes × Bytes)
  Fields : FieldMap
  deriving DecidableEq, Repr

/-- The members of `client.BatchPoints` that the readers set. -/
structure BatchPoints where
  Database : Bytes
  RetentionPolicy : Bytes
  Points : List Point
  deriving DecidableEq, Repr

/-- A bolt bucket that holds key/value pairs, in key order (the order of `ForEach`). -/
abbrev Bucket := List (Bytes × Bytes)

/-- What a reader sees of one shard file through its bolt transaction. -/
structure Shard where
  /-- the top-level buckets that hold key/value pairs, name and content, in key order -/
  buckets : List (Bytes × Bucket)
  /-- the top-level bucket `points` of a bz1 shard, if there is one: its keys in key order,
  each with the child bucket stored under it, if the key holds a bucket -/
  points : Option (List (Bytes × Option Bucket))

/-- The decoders of other packages that the readers call; each is `none` where the library
returns an error. -/
structure Codecs where
  /-- `proto.Unmarshal` into the generated `MeasurementFields`: id, name and type of each
  listed field -/
  unmarshalFields : Bytes → Option (List (Int × Bytes × DataType))
  /-- `snappy.Decode(nil, v)` -/
  snappyDecode : Bytes → Option Bytes
  /-- `json.Unmarshal` into `map[string]*measurementFields` -/
  jsonMeasurements : Bytes → Option (List (Bytes × measurementFields))

/-- The visiting orders of the escapes table for one key: the forward loop, and the reverse
loop of each tag segment. -/
abbrev KeyOrders := List (Bytes × replaceescaped) × (Nat → List (Bytes × replaceescaped))

/-- How a reader, or the whole run, ends. -/
inductive Ending where
  /-- it returned nil -/
  | done
  /-- it returned an error -/
  | failed
  /-- it ended the process with log.Fatalf -/
  | fatal
  /-- it panicked and nothing recovered -/
  | crash
  deriving DecidableEq, Repr

/-- The batches a reader sent on `cpoints`, in order, and how it ended. -/
structure Run where
  sent : List BatchPoints
  ending : Ending
  deriving DecidableEq, Repr

/-- How a loop that collects the points of one batch ends. -/
inductive Collected where
  /-- the loop completed with these points -/
  | points (ps : List Point)
  /-- the loop did not complete -/
  | stopped (e : Ending)
  deriving DecidableEq, Repr

/-- A loop whose body is `f`: the bodies run in order until one does not end with `done`. -/
def runEach {α : Type} (f : α → Run) : List α → Run
  | [] => ⟨[], .done⟩
  | a :: rest =>
    match (f a).ending with
    | .done => ⟨(f a).sent ++ (runEach f rest).sent, (runEach f rest).ending⟩
    | _ => f a

/-- Source `UnmarshalBinary` (lines 338-348): the map is keyed by the field name, the id is
converted to `uint8`. -/
def UnmarshalBinary (codecs : Codecs) (buf : Bytes) : Option measurementFields :=
  match codecs.unmarshalFields buf with
  | none => none
  | some pb =>
    some ⟨pb.foldl (fun m f => mapSet m f.2.1 ⟨(f.1 % 256).toNat, f.2.1, f.2.2⟩) []⟩

/-- Lines 368-379: the loop over the `fields` bucket; `none` is the log.Fatalf of line 373. -/
def loadFields (codecs : Codecs) :
    Bucket → List (Bytes × measurementFields) → Option (List (Bytes × measurementFields))
  | [], measurements => some measurements
  | (k, v) :: rest, measurements =>
    match UnmarshalBinary codecs v with
    | none => none
    | some mf => loadFields codecs rest (mapSet measurements k mf)

/-- Lines 408-422: the loop over the entries of a b1 series bucket. A decoding error ends the
process (line 412); a key shorter than eight bytes panics in `btou64`. -/
def b1Entries (mname : Bytes) (tags : List (Bytes × Bytes)) (mf : measurementFields) :
    Bucket → List Point → Collected
  | [], points => .points points
  | (k, v) :: rest, points =>
    match getfields mname mf v with
    | .ok fields =>
      if k.length < 8 then .stopped .crash
      else b1Entries mname tags mf rest (points ++ [⟨mname, int64 (btou64 k), tags, fields⟩])
    | .error _ => .stopped .fatal
    | .crash => .stopped .crash
    | .fatal => .stopped .fatal

/-- Lines 381-426: the body of `tx.ForEach` for one top-level bucket. -/
def b1Bucket (measurements : List (Bytes × measurementFields)) (dbname rpname : Bytes)
    (orders : Bytes → KeyOrders) (nb : Bytes × Bucket) : Run :=
  if nb.1 = str "fields" ∨ nb.1 = str "series" ∨ nb.1 = str "meta" ∨ nb.1 = str "wal" then
    ⟨[], .done⟩
  else
    match parsekey .b1 measurements (orders nb.1).1 (orders nb.1).2 nb.1 with
    | .skipped _ => ⟨[], .done⟩
    | .fatal _ => ⟨[], .fatal⟩
    | .crash => ⟨[], .crash⟩
    | .parsed mname tags =>
      match mapGet measurements mname with
      | none => ⟨[], .crash⟩
      | some mf =>
        match b1Entries mname tags mf nb.2 [] with
        | .points points => ⟨[⟨dbname, rpname, points⟩], .done⟩
        | .stopped e => ⟨[], e⟩

/-- Source `getb1points`. -/
def getb1points (codecs : Codecs) (tx : Shard) (dbname rpname : Bytes)
    (orders : Bytes → KeyOrders) : Run :=
  match mapGet tx.buckets (str "fields") with
  | none => ⟨[], .fatal⟩
  | some fb =>
    match loadFields codecs fb [] with
    | none => ⟨[], .fatal⟩
    | some measurements => runEach (b1Bucket measurements dbname rpname orders) tx.buckets

/-- Source `entryHeaderSize`. -/
def entryHeaderSize : Nat := 8 + 4

/-- Source `entryDataSize`, for a buffer of at least twelve bytes (`int` has 64 bits). -/
def entryDataSize (v : Bytes) : Nat := beUint ((v.take 12).drop 8)

/-- Lines 488-498: the loop that cuts the decompressed block into entries. `none` is a
slice expression out of range (fewer than twelve bytes left, or fewer than the header and
the declared data size). `fuel` bounds the iterations; every iteration consumes at least
twelve bytes, so `len(buf)` is enough (`splitEntries_fuel`). -/
def splitEntries : Nat → Bytes → List Bytes → Option (List Bytes)
  | 0, _, entries => some entries
  | fuel + 1, buf, entries =>
    if buf.length = 0 then some entries
    else if buf.length < 12 then none
    else if buf.length < entryHeaderSize + entryDataSize buf then none
    else
      splitEntries fuel (buf.drop (entryHeaderSize + entryDataSize buf))
        (entries ++ [buf.take (entryHeaderSize + entryDataSize buf)])

/-- Lines 505-537: the loop over the entries of a block. An entry whose payload `getfields`
returns with an error is printed and left out; the loop goes on. The payload
`b[entryHeaderSize:]` keeps the capacity of the block, beyond its length; `getfields` ends
the same way as on a slice without spare capacity, because a slice expression that the
capacity lets pass is followed by `b = b[n:]` with the same bound, checked against the
length. -/
def bz1Entries (mname : Bytes) (tags : List (Bytes × Bytes)) (mf : measurementFields) :
    List Bytes → List Point → Collected
  | [], points => .points points
  | b :: rest, points =>
    match getfields mname mf (b.drop entryHeaderSize) with
    | .ok fields =>
      bz1Entries mname tags mf rest
        (points ++ [⟨mname, int64 (btou64 (b.take 8)), tags, fields⟩])
    | .error _ => bz1Entries mname tags mf rest points
    | .crash => .stopped .crash
    | .fatal => .stopped .fatal

/-- Lines 482-540: the body of `b.ForEach` for one compressed block `v1`. -/
def bz1Block (codecs : Codecs) (mname : Bytes) (tags : List (Bytes × Bytes))
    (mf : measurementFields) (dbname rpname : Bytes) (kv : Bytes × Bytes) : Run :=
  if kv.2.length < 8 then ⟨[], .crash⟩
  else
    match codecs.snappyDecode (kv.2.drop 8) with
    | none => ⟨[], .fatal⟩
    | some buf =>
      match splitEntries buf.length buf [] with
      | none => ⟨[], .crash⟩
      | some entries =>
        match bz1Entries mname tags mf entries [] with
        | .points points => ⟨[⟨dbname, rpname, points⟩], .done⟩
        | .stopped e => ⟨[], e⟩

/-- Lines 457-544: the body of `pb.ForEach` for one key of the `points` bucket. -/
def bz1Series (codecs : Codecs) (measurements : List (Bytes × measurementFields))
    (dbname rpname : Bytes) (orders : Bytes → KeyOrders) (kb : Bytes × Option Bucket) : Run :=
  match parsekey .bz1 measurements (orders kb.1).1 (orders kb.1).2 kb.1 with
  | .skipped _ => ⟨[], .done⟩
  | .fatal _ => ⟨[], .fatal⟩
  | .crash => ⟨[], .crash⟩
  | .parsed mname tags =>
    match mapGet measurements mname with
    | none => ⟨[], .crash⟩
    | some mf =>
      match kb.2 with
      | none => ⟨[], .fatal⟩
      | some b => runEach (bz1Block codecs mname tags mf dbname rpname) b

/-- Source `getbz1points`. -/
def getbz1points (codecs : Codecs) (tx : Shard) (dbname rpname : Bytes)
    (orders : Bytes → KeyOrders) : Run :=
  match mapGet tx.buckets (str "meta") with
  | none => ⟨[], .fatal⟩
  | some fb =>
    match codecs.snappyDecode ((mapGet fb (str "fields")).getD []) with
    | none => ⟨[], .fatal⟩
    | some data =>
      match codecs.jsonMeasurements data with
      | none => ⟨[], .failed⟩
      | some measurements =>
        match tx.points with
        | none => ⟨[], .fatal⟩
        | some pb => runEach (bz1Series codecs measurements dbname rpname orders) pb

/-! ## `GetPoints` (lines 51-144) -/

/-- Lines 116-123: the engine name of a shard, `b1` unless the bucket `meta` holds the key
`format`. -/
def shardEngine (tx : Shard) : Bytes :=
  match mapGet tx.buckets (str "meta") with
  | none => str "b1"
  | some mb =>
    match mapGet mb (str "format") with
    | none => str "b1"
    | some v => v

/-- The three arms of the `switch` of lines 125-132. -/
inductive Dispatch where
  | b1
  | bz1
  /-- the default arm: log.Fatalf with the engine name -/
  | unknownEngine (engine : Bytes)
  deriving DecidableEq, Repr

/-- The `switch` of lines 125-132. -/
def dispatch (engine : Bytes) : Dispatch :=
  if engine = str "b1" then .b1
  else if engine = str "bz1" then .bz1
  else .unknownEngine engine

/-- Lines 107-139: one shard file; `none` is a file that `bolt.Open` refuses. An error
returned by the reader ends the process at line 137. -/
def shardRun (codecs : Codecs) (orders : Bytes → Bytes → KeyOrders) (dbname rpname : Bytes)
    (sf : Bytes × Option Shard) : Run :=
  match sf.2 with
  | none => ⟨[], .fatal⟩
  | some tx =>
    match dispatch (shardEngine tx) with
    | .b1 =>
      match getb1points codecs tx dbname rpname (orders sf.1) with
      | ⟨sent, .failed⟩ => ⟨sent, .fatal⟩
      | r => r
    | .bz1 =>
      match getbz1points codecs tx dbname rpname (orders sf.1) with
      | ⟨sent, .failed⟩ => ⟨sent, .fatal⟩
      | r => r
    | .unknownEngine _ => ⟨[], .fatal⟩

/-- The data directory as `GetPoints` reads it. -/
structure DataDir where
  /-- the values of the bucket `logs` of `meta/raft.db` in key order, each decoded to its
  command (`none`: `proto.Unmarshal` fails); `none` when the file cannot be opened, has no
  bucket `logs`, or cannot be closed (log.Fatalf) -/
  log : Option (List (Option Command))
  /-- the entries of `data/<db>/<rp>` by name, each with its content (`none`: `bolt.Open`
  fails); `none` when `ioutil.ReadDir` fails -/
  shards : Bytes → Bytes → Option (List (Bytes × Option Shard))

/-- What `GetPoints` does on its two channels, in program order. -/
inductive Event where
  /-- `cdatabases <- db` -/
  | database (db : Database)
  /-- `close(cdatabases)` -/
  | closeDatabases
  /-- `cpoints <- bp` -/
  | points (bp : BatchPoints)
  /-- `close(cpoints)` -/
  | closePoints
  /-- the process ended in log.Fatalf -/
  | fatal
  /-- the process ended in a panic -/
  | crash
  deriving DecidableEq, Repr

/-- Lines 99-142: the loops over databases, retention policies and shard files. -/
def shardsRun (codecs : Codecs) (orders : Bytes → Bytes → Bytes → Bytes → KeyOrders)
    (d : DataDir) (databases : List Database) : Run :=
  runEach
    (fun db =>
      runEach
        (fun rp =>
          match d.shards db.Name rp.Name with
          | none => ⟨[], .done⟩
          | some shards => runEach (shardRun codecs (orders db.Name rp.Name) db.Name rp.Name) shards)
        db.Policies)
    databases

/-- Source `GetPoints`, as the sequence of events on the two channels; `orders` gives the
visiting orders of the escapes table for each database, policy, shard file and key. -/
def GetPoints (codecs : Codecs) (orders : Bytes → Bytes → Bytes → Bytes → KeyOrders)
    (d : DataDir) : List Event :=
  match d.log with
  | none => [.fatal]
  | some log =>
    let databases := replay log
    let r := shardsRun codecs orders d databases
    databases.map .database ++ [.closeDatabases] ++ r.sent.map .points
      ++ (match r.ending with
          | .done => [.closePoints]
          | .crash => [.crash]
          | _ => [.fatal])

/-- Spec section 4.8, the framing of one entry of a block:
`[timestamp:8 BE][data_len:4 BE][data]`. -/
def frameEntry (e : Nat × Bytes) : Bytes := bePut 8 e.1 ++ (bePut 4 e.2.length ++ e.2)

/-- The concatenation of the frames of a list of entries (timestamp, data). -/
def frameEntries (es : List (Nat × Bytes)) : Bytes := (es.map frameEntry).flatten

/-! ## Example shards -/

/-- Stand-ins for the library decoders in the examples: every value of a `fields` bucket
decodes to the schema {temp: id 1 Float, v: id 2 Integer, s: id 3 String}, and the snappy
decoder returns its input. -/
def exampleCodecs : Codecs :=
  ⟨fun _ => some [(1, str "temp", .Float), (2, str "v", .Integer), (3, str "s", .String)],
   fun x => some x,
   fun _ => some [(str "cpu", ⟨[(str "v", ⟨1, str "v", .Integer⟩), (str "s", ⟨3, str "s", .String⟩)]⟩)]⟩

/-- The table order, for every key. -/
def tableOrders : KeyOrders := (escapes, fun _ => escapes)

/-- The b1 shard of the spec: schema for cpu, series bucket `cpu,host=h1` with one entry at
1700000000000000000 ns holding temp = 23.5 (bit pattern 0x4037800000000000). -/
def exampleB1Shard : Shard :=
  ⟨[ (str "cpu,host=h1", [(bePut 8 1700000000000000000, 1 :: bePut 8 4627307879634829312)]),
     (str "fields", [(str "cpu", [])]) ],
   none⟩

/-- A data directory with the database db1, its policy rp1 and one shard file. -/
def exampleDataDir : DataDir :=
  ⟨some [some (.CreateDatabase (str "db1")),
      some (.CreateRetentionPolicy (str "db1") (str "rp1") 3600000000000 1)],
   fun db rp =>
     if db = str "db1" ∧ rp = str "rp1" then some [(str "1", some exampleB1Shard)] else none⟩

/-- A schema with v: id 1 Integer and s: id 3 String. -/
def exampleBz1Schema : measurementFields :=
  ⟨[(str "v", ⟨1, str "v", .Integer⟩), (str "s", ⟨3, str "s", .String⟩)]⟩

/-- A bz1 shard: format bz1, and under the key cpu of `points` one block with the entries
ts 100, v = 7 and ts 200, v = 8 after eight bytes of block metadata. -/
def exampleBz1Shard : Shard :=
  ⟨[(str "meta", [(str "fields", []), (str "format", str "bz1")])],
   some [(str "cpu",
     some [(bePut 8 100, [0, 0, 0, 0, 0, 0, 0, 0]
       ++ frameEntries [(100, 1 :: bePut 8 7), (200, 1 :: bePut 8 8)])])]⟩

/-- The run `r` of a shard is the run `reader` of a reader, an error returned by the reader
ending the process (line 137). -/
def ReadsWith (r reader : Run) : Prop :=
  r.sent = reader.sent
    ∧ r.ending = (if reader.ending = .failed then .fatal else reader.ending)

/-! ## Arbitrary keys as token sequences -/

/-- The tokens of an arbitrary key: a backslash right before `,` `"` space or `=` forms an
escape pair with it, every other byte is literal. -/
def keyTokens : Bytes → List Tok
  | [] => []
  | [c] => [.lit c]
  | c :: d :: s =>
    if c = 92 then
      match escOf d with
      | some i => .esc i :: keyTokens s
      | none => .lit c :: keyTokens (d :: s)
    else .lit c :: keyTokens (d :: s)

/-- The cut of a token sequence at the literal separator `sep`, as `Split` cuts bytes. -/
def splitToks (sep : Nat) : List Tok → List (List Tok)
  | [] => [[]]
  | t :: ts =>
    if t = .lit sep then [] :: splitToks sep ts
    else
      match splitToks sep ts with
      | [] => [[t]]
      | h :: r => (t :: h) :: r

/-- A visiting order of the escapes table that starts with the entry of the quote. -/
def quoteFirst : List (Bytes × replaceescaped) :=
  [Esc.entry .quote, Esc.entry .comma, Esc.entry .space, Esc.entry .equals]

/-! ## Lemmas on maps and byte helpers -/

theorem mapGet_mapSet {β : Type} (m : List (Bytes × β)) (k n : Bytes) (v : β) :
    mapGet (mapSet m k v) n = if k = n then some v else mapGet m n := by
  induction m with
  | nil => simp [mapSet, mapGet]
  | cons p rest ih =>
    obtain ⟨k0, v0⟩ := p
    by_cases h : k0 = k
    · subst h
      by_cases h2 : k0 = n <;> simp [mapSet, mapGet, h2]
    · by_cases h2 : k = n
      · subst h2
        simp [mapSet, mapGet, h, ih]
      · by_cases h3 : k0 = n
        · subst h3
          simp [mapSet, mapGet, h, h2]
        · simp [mapSet, mapGet, h, h2, h3, ih]

theorem mem_mapSet {β : Type} (m : List (Bytes × β)) (k : Bytes) (v : β) (p : Bytes × β)
    (hp : p ∈ mapSet m k v) : p = (k, v) ∨ p ∈ m := by
  induction m with
  | nil => simpa [mapSet] using hp
  | cons q rest ih =>
    obtain ⟨k0, v0⟩ := q
    by_cases h : k0 = k
    · simp only [mapSet, h, if_true, List.mem_cons] at hp
      rcases hp with hp | hp
      · exact Or.inl hp
      · exact Or.inr (List.mem_cons_of_mem _ hp)
    · simp only [mapSet, h, if_false, List.mem_cons] at hp
      rcases hp with hp | hp
      · exact Or.inr (by simp [hp])
      · rcases ih hp with h1 | h1
        · exact Or.inl h1
        · exact Or.inr (List.mem_cons_of_mem _ h1)

theorem mem_of_mapGet {β : Type} (m : List (Bytes × β)) (k : Bytes) (v : β)
    (h : mapGet m k = some v) : (k, v) ∈ m := by
  induction m with
  | nil => simp [mapGet] at h
  | cons q rest ih =>
    obtain ⟨k0, v0⟩ := q
    by_cases hk : k0 = k
    · simp only [mapGet, hk, if_true, Option.some.injEq] at h
      simp [hk, h]
    · simp only [mapGet, hk, if_false] at h
      exact List.mem_cons_of_mem _ (ih h)

theorem mapGet_of_mem {β : Type} (m : List (Bytes × β)) (k : Bytes) (v : β)
    (hnd : (mapKeys m).Nodup) (h : (k, v) ∈ m) : mapGet m k = some v := by
  induction m with
  | nil => simp at h
  | cons q rest ih =>
    obtain ⟨k0, v0⟩ := q
    simp only [mapKeys, List.map_cons, List.nodup_cons, List.mem_map, not_exists, not_and] at hnd
    rcases List.mem_cons.mp h with h1 | h1
    · simp only [Prod.mk.injEq] at h1
      simp [mapGet, h1.1, h1.2]
    · have hne : k0 ≠ k := fun e => hnd.1 (k, v) h1 e.symm
      simp only [mapGet, hne, if_false]
      exact ih hnd.2 h1

theorem length_bePut (n v : Nat) : (bePut n v).length = n := by
  induction n generalizing v with
  | zero => rfl
  | succ n ih => simp [bePut, ih]

theorem beUint_snoc (bs : Bytes) (x : Nat) : beUint (bs ++ [x]) = beUint bs * 256 + x := by
  simp [beUint, List.foldl_append]

theorem beUint_bePut (n v : Nat) : beUint (bePut n v) = v % 256 ^ n := by
  induction n generalizing v with
  | zero => simp [bePut, beUint, Nat.mod_one]
  | succ n ih =>
    rw [bePut, beUint_snoc, ih, pow_succ, Nat.mul_comm (256 ^ n) 256, Nat.mod_mul]
    ring

theorem int64_uint64 (v : Int) (h1 : -(2 : Int) ^ 63 ≤ v) (h2 : v < (2 : Int) ^ 63) :
    int64 (uint64 v) = v := by
  simp only [int64, uint64]
  norm_num at h1 h2 ⊢
  split <;> omega

/-! ## `getfields` on framed records -/

theorem find_entry_of_mem (l : List (Bytes × field)) (f : field)
    (hids : (l.map (fun e => e.2.ID)).Nodup) (hf : f ∈ l.map Prod.snd) :
    (l.find? (fun e => e.2.ID == f.ID)).map Prod.snd = some f := by
  induction l with
  | nil => simp at hf
  | cons e rest ih =>
    simp only [List.map_cons, List.nodup_cons, List.mem_map, not_exists, not_and] at hids
    by_cases he : e.2.ID = f.ID
    · have hef : e.2 = f := by
        rcases List.mem_cons.mp (by simpa using hf : f ∈ e.2 :: rest.map Prod.snd) with h | h
        · exact h.symm
        · obtain ⟨e2, he2, rfl⟩ := List.mem_map.mp h
          exact absurd he.symm (hids.1 e2 he2)
      simp [List.find?, he, hef]
    · have hmem : f ∈ rest.map Prod.snd := by
        rcases List.mem_cons.mp (by simpa using hf : f ∈ e.2 :: rest.map Prod.snd) with h | h
        · exact absurd (by rw [h]) he
        · exact h
      have hb : (e.2.ID == f.ID) = false := by simpa using he
      simp only [List.find?, hb]
      exact ih hids.2 hmem

theorem findField_of_mem (m : measurementFields) (f : field)
    (hids : (m.Fields.map (fun e => e.2.ID)).Nodup) (hf : f ∈ m.Fields.map Prod.snd) :
    findField m f.ID = some f :=
  find_entry_of_mem m.Fields f hids hf

theorem findField_mem (m : measurementFields) (fid : Nat) (f : field)
    (h : findField m fid = some f) : f ∈ m.Fields.map Prod.snd := by
  unfold findField at h
  cases hfind : m.Fields.find? (fun e => e.2.ID == fid) with
  | none => simp [hfind] at h
  | some e =>
    simp only [hfind, Option.map_some', Option.some.injEq] at h
    exact List.mem_map.mpr ⟨e, List.mem_of_find?_eq_some hfind, h⟩

theorem take_drop_frame8 (id : Nat) (v : Nat) (tail : Bytes) :
    ((id :: (bePut 8 v ++ tail)).take 9).drop 1 = bePut 8 v := by
  have h := length_bePut 8 v
  simp [List.take_append_eq_append_take, h]

/-- One iteration of the loop on a framed record whose field the schema finds. -/
theorem getfieldsLoop_frame (m : measurementFields) (f : field) (v : Value)
    (hfind : findField m f.ID = some f) (hid : f.ID ≠ 0) (htyp : v.typ = f.Typ)
    (hfit : v.fits 65532) (fuel : Nat) (tail : Bytes) (ret : FieldMap) (defers : Nat) :
    ∃ d, getfieldsLoop m (fuel + 1) (frame f.ID v ++ tail) ret defers
      = getfieldsLoop m fuel tail (mapSet ret f.Name v) d := by
  cases v with
  | Float bits =>
    refine ⟨defers, ?_⟩
    have hb : bits % 256 ^ 8 = bits := Nat.mod_eq_of_lt (by simpa [Value.fits] using hfit)
    have ht : DataType.Float = f.Typ := htyp
    have hl := length_bePut 8 bits
    simp only [frame, List.cons_append, getfieldsLoop, hfind, hid, if_false, ← ht,
      take_drop_frame8, beUint_bePut, hb]
    simp [hl]
  | Integer i =>
    refine ⟨defers, ?_⟩
    obtain ⟨h1, h2⟩ : -(2 : Int) ^ 63 ≤ i ∧ i < (2 : Int) ^ 63 := hfit
    have hb : uint64 i % 256 ^ 8 = uint64 i := by
      apply Nat.mod_eq_of_lt
      simp only [uint64]
      norm_num at h1 h2 ⊢
      omega
    have ht : DataType.Integer = f.Typ := htyp
    have hl := length_bePut 8 (uint64 i)
    simp only [frame, List.cons_append, getfieldsLoop, hfind, hid, if_false, ← ht,
      take_drop_frame8, beUint_bePut, hb, int64_uint64 i h1 h2]
    simp [hl]
  | Boolean b =>
    refine ⟨defers, ?_⟩
    have ht : DataType.Boolean = f.Typ := htyp
    simp only [frame, List.cons_append, getfieldsLoop, hfind, hid, if_false, ← ht]
    cases b <;> simp
  | String s =>
    refine ⟨defers + 1, ?_⟩
    have hs : s.length ≤ 65532 := hfit
    have ht : DataType.String = f.Typ := htyp
    have hl := length_bePut 2 s.length
    have htd : ((f.ID :: (bePut 2 s.length ++ s ++ tail)).take 3).drop 1 = bePut 2 s.length := by
      simp [List.take_append_eq_append_take, hl]
    have hsize : s.length % 256 ^ 2 % 65536 = s.length := by omega
    have hhi : (s.length + 3) % 65536 = s.length + 3 := by omega
    simp only [frame, List.cons_append, List.append_assoc, getfieldsLoop, hfind, hid, if_false,
      ← ht]
    rw [← List.append_assoc, htd, beUint_bePut, hsize, hhi]
    have hlen : (f.ID :: (bePut 2 s.length ++ s ++ tail)).length = s.length + 3 + tail.length := by
      simp [hl]; omega
    have hdrop : (f.ID :: (bePut 2 s.length ++ s ++ tail)).drop (s.length + 3) = tail := by
      have : f.ID :: (bePut 2 s.length ++ s ++ tail) = (f.ID :: (bePut 2 s.length ++ s)) ++ tail := by
        simp
      rw [this]
      apply List.drop_left'
      simp [hl]; omega
    have htake : ((f.ID :: (bePut 2 s.length ++ s ++ tail)).take (s.length + 3)).drop 3 = s := by
      have : f.ID :: (bePut 2 s.length ++ s ++ tail) = (f.ID :: (bePut 2 s.length ++ s)) ++ tail := by
        simp
      rw [this, List.take_left']
      · have : f.ID :: (bePut 2 s.length ++ s) = (f.ID :: bePut 2 s.length) ++ s := by simp
        rw [this]
        apply List.drop_left'
        simp [hl]
      · simp [hl]; omega
    rw [hdrop, htake]
    have h3 : 3 ≤ (f.ID :: (bePut 2 s.length ++ s ++ tail)).length := by rw [hlen]; omega
    have h4 : 3 ≤ s.length + 3 ∧ s.length + 3 ≤ (f.ID :: (bePut 2 s.length ++ s ++ tail)).length := by
      rw [hlen]; omega
    simp only [h3, h4, if_true, and_self]

theorem findField_none_of_unknown (m : measurementFields) (c : Nat)
    (h : ∀ e ∈ m.Fields, e.2.ID ≠ c) : findField m c = none := by
  unfold findField
  have : m.Fields.find? (fun e => e.2.ID == c) = none := by
    rw [List.find?_eq_none]
    intro e he
    simpa using h e he
  simp [this]

/-- The loop on a sequence of framed records followed by a soft end. -/
theorem getfieldsLoop_frames (m : measurementFields) (rest : Bytes)
    (hrest : ∀ c t, rest = c :: t → findField m c = none) (recs : List (field × Value)) :
    (∀ r ∈ recs, findField m r.1.ID = some r.1 ∧ r.1.ID ≠ 0 ∧ r.2.typ = r.1.Typ
      ∧ r.2.fits 65532) →
    ∀ (fuel : Nat) (ret : FieldMap) (defers : Nat), recs.length ≤ fuel →
      getfieldsLoop m fuel (frames recs ++ rest) ret defers = .ok (assign ret recs) := by
  induction recs with
  | nil =>
    intro _ fuel ret defers _
    cases fuel with
    | zero => simp [getfieldsLoop, assign]
    | succ fuel =>
      cases hr : rest with
      | nil => simp [frames, getfieldsLoop, assign]
      | cons c t => simp [frames, getfieldsLoop, assign, hrest c t hr]
  | cons r rs ih =>
    intro hrecs fuel ret defers hfuel
    cases fuel with
    | zero => simp at hfuel
    | succ fuel =>
      obtain ⟨hfind, hid, htyp, hfit⟩ := hrecs r (List.mem_cons_self _ _)
      have hsplit : frames (r :: rs) ++ rest = frame r.1.ID r.2 ++ (frames rs ++ rest) := by
        simp [frames]
      obtain ⟨d, hd⟩ :=
        getfieldsLoop_frame m r.1 r.2 hfind hid htyp hfit fuel (frames rs ++ rest) ret defers
      rw [hsplit, hd]
      have := ih (fun r2 h2 => hrecs r2 (List.mem_cons_of_mem _ h2)) fuel
        (mapSet ret r.1.Name r.2) d (by simpa using hfuel)
      rw [this]
      simp [assign]

theorem length_frame_pos (id : Nat) (v : Value) : 1 ≤ (frame id v).length := by
  cases v <;> simp [frame]

theorem length_le_frames (recs : List (field × Value)) : recs.length ≤ (frames recs).length := by
  induction recs with
  | nil => simp [frames]
  | cons r rs ih =>
    have h := length_frame_pos r.1.ID r.2
    have : frames (r :: rs) = frame r.1.ID r.2 ++ frames rs := by simp [frames]
    rw [this, List.length_append, List.length_cons]
    omega

/-- The map built by `assign` from records with pairwise distinct names. -/
theorem mapGet_assign (recs : List (field × Value)) :
    (recs.map (fun r => r.1.Name)).Nodup →
    ∀ (ret : FieldMap) (name : Bytes),
      mapGet (assign ret recs) name
        = match recs.find? (fun r => r.1.Name = name) with
          | some r => some r.2
          | none => mapGet ret name := by
  induction recs with
  | nil => intro _ ret name; simp [assign]
  | cons r rs ih =>
    intro hnd ret name
    simp only [List.map_cons, List.nodup_cons, List.mem_map, not_exists, not_and] at hnd
    have hstep : assign ret (r :: rs) = assign (mapSet ret r.1.Name r.2) rs := by simp [assign]
    rw [hstep, ih hnd.2, mapGet_mapSet]
    by_cases hn : r.1.Name = name
    · have hnone : rs.find? (fun r2 => decide (r2.1.Name = name)) = none := by
        rw [List.find?_eq_none]
        intro r2 h2
        have := hnd.1 r2 h2
        simpa [← hn] using this
      simp [List.find?, hn, hnone]
    · simp [List.find?, hn]

/-- The fuel `len(b)` never runs out: one more unit changes nothing. -/
theorem getfieldsLoop_fuel (m : measurementFields) (fuel : Nat) :
    ∀ (b : Bytes) (ret : FieldMap) (defers : Nat), b.length ≤ fuel →
      getfieldsLoop m (fuel + 1) b ret defers = getfieldsLoop m fuel b ret defers := by
  induction fuel with
  | zero =>
    intro b ret defers hb
    have : b = [] := List.length_eq_zero.mp (Nat.le_zero.mp hb)
    subst this
    simp [getfieldsLoop]
  | succ fuel ih =>
    intro b ret defers hb
    cases b with
    | nil => simp [getfieldsLoop]
    | cons fid t =>
      rw [getfieldsLoop, getfieldsLoop]
      cases findField m fid with
      | none => rfl
      | some f =>
        simp only
        by_cases hid : f.ID = 0
        · simp [hid]
        · simp only [hid, if_false]
          have hlen : ∀ k, 1 ≤ k → ((fid :: t).drop k).length ≤ fuel := by
            intro k hk
            simp only [List.length_drop, List.length_cons] at hb ⊢
            omega
          cases f.Typ with
          | Float =>
            simp only
            split
            · exact ih _ _ _ (hlen 9 (by omega))
            · rfl
          | Integer =>
            simp only
            split
            · exact ih _ _ _ (hlen 9 (by omega))
            · rfl
          | Boolean =>
            simp only
            split
            · exact ih _ _ _ (hlen 2 (by omega))
            · rfl
          | String =>
            simp only
            split
            · split
              · rename_i h3
                exact ih _ _ _ (hlen _ (by omega))
              · rfl
            · rfl
          | Other code => rfl

/-- Every entry of a result of the loop comes from a field that the schema holds. -/
theorem getfieldsLoop_entries (m : measurementFields) (fuel : Nat) :
    ∀ (b : Bytes) (ret : FieldMap) (defers : Nat) (out : FieldMap),
      (getfieldsLoop m fuel b ret defers = .ok out
        ∨ getfieldsLoop m fuel b ret defers = .error out) →
      (∀ p ∈ ret, ∃ f ∈ m.Fields.map Prod.snd, f.Name = p.1 ∧ p.2.typ = f.Typ) →
      ∀ p ∈ out, ∃ f ∈ m.Fields.map Prod.snd, f.Name = p.1 ∧ p.2.typ = f.Typ := by
  have hunwind : ∀ (n : Nat) (b : Bytes) (ret out : FieldMap),
      (unwind n b ret = .ok out ∨ unwind n b ret = .error out) → out = ret := by
    intro n
    induction n with
    | zero => intro b ret out h; simp [unwind] at h
    | succ n ihn =>
      intro b ret out h
      simp only [unwind] at h
      split at h
      · exact ihn b ret out h
      · simpa [eq_comm] using h
  induction fuel with
  | zero =>
    intro b ret defers out h hret
    simp only [getfieldsLoop, Outcome.ok.injEq, reduceCtorEq, or_false] at h
    exact h ▸ hret
  | succ fuel ih =>
    intro b ret defers out h hret
    cases b with
    | nil =>
      simp only [getfieldsLoop, Outcome.ok.injEq, reduceCtorEq, or_false] at h
      exact h ▸ hret
    | cons fid t =>
      rw [getfieldsLoop] at h
      cases hfind : findField m fid with
      | none =>
        simp only [hfind, Outcome.ok.injEq, reduceCtorEq, or_false] at h
        exact h ▸ hret
      | some f =>
        have hmem := findField_mem m fid f hfind
        have hset : ∀ v : Value, v.typ = f.Typ →
            ∀ p ∈ mapSet ret f.Name v, ∃ g ∈ m.Fields.map Prod.snd, g.Name = p.1 ∧ p.2.typ = g.Typ := by
          intro v hv p hp
          rcases mem_mapSet ret f.Name v p hp with h1 | h1
          · exact ⟨f, hmem, by simp [h1], by simp [h1, hv]⟩
          · exact hret p h1
        simp only [hfind] at h
        by_cases hid : f.ID = 0
        · simp [hid] at h
        · simp only [hid, if_false] at h
          cases hty : f.Typ with
          | Float =>
            simp only [hty] at h
            split at h
            · exact ih _ _ _ out h (hset _ (by simp [Value.typ, hty]))
            · exact (hunwind _ _ _ _ h) ▸ hret
          | Integer =>
            simp only [hty] at h
            split at h
            · exact ih _ _ _ out h (hset _ (by simp [Value.typ, hty]))
            · exact (hunwind _ _ _ _ h) ▸ hret
          | Boolean =>
            simp only [hty] at h
            split at h
            · exact ih _ _ _ out h (hset _ (by simp [Value.typ, hty]))
            · exact (hunwind _ _ _ _ h) ▸ hret
          | String =>
            simp only [hty] at h
            split at h
            · split at h
              · exact ih _ _ _ out h (hset _ (by simp [Value.typ, hty]))
              · exact (hunwind _ _ _ _ h) ▸ hret
            · exact (hunwind _ _ _ _ h) ▸ hret
          | Other code => simp [hty] at h

/-! ## A String record of declared length 65533 -/

theorem findField_example_string :
    findField exampleSchema 4 = some ⟨4, str "f4", .String⟩ := by
  decide

theorem beUint_length_65533 (data : Bytes) :
    beUint (List.drop 1 (List.take 3 (4 :: 255 :: 253 :: data))) = 65533 := by
  simp [beUint]

theorem wrap_65533 : (65533 % 65536 + 3) % 65536 = 0 := by norm_num

theorem getfieldsLoop_length_65533 (data : Bytes) (ret : FieldMap) (n : Nat) :
    getfieldsLoop exampleSchema (n + 1) (4 :: 255 :: 253 :: data) ret 0
      = unwind 1 (4 :: 255 :: 253 :: data) ret := by
  simp only [getfieldsLoop, findField_example_string, beUint_length_65533, wrap_65533]
  simp

theorem getfields_length_65533 (data : Bytes) :
    getfields (str "m") exampleSchema (4 :: 255 :: 253 :: data) = .error [] := by
  unfold getfields
  rw [List.length_cons, getfieldsLoop_length_65533]
  simp [unwind]

/-! ## The example payload -/

theorem getfields_example :
    getfields (str "m") exampleSchema (frames exampleRecords)
      = .ok [ (str "f1", .Float 4614253070214989087), (str "f2", .Integer (-5)),
              (str "f3", .Boolean true), (str "f4", .String (str "hi")) ] := by
  decide

/-! ## Lemmas on `Split` -/

theorem Split_ne_nil (s : Bytes) (sep : Nat) : Split s sep ≠ [] := by
  induction s with
  | nil => simp [Split]
  | cons c cs ih =>
    by_cases h : c = sep
    · simp [Split, h]
    · cases hs : Split cs sep with
      | nil => exact absurd hs ih
      | cons x t => simp [Split, h, hs]

/-- A string without the separator is a single piece. -/
theorem Split_of_not_mem (s : Bytes) (sep : Nat) (h : sep ∉ s) : Split s sep = [s] := by
  induction s with
  | nil => simp [Split]
  | cons c cs ih =>
    have hc : c ≠ sep := fun e => h (by simp [e])
    have hcs : sep ∉ cs := fun e => h (List.mem_cons_of_mem _ e)
    simp [Split, hc, ih hcs]

/-- The first separator ends the first piece. -/
theorem Split_append_sep (x rest : Bytes) (sep : Nat) (h : sep ∉ x) :
    Split (x ++ sep :: rest) sep = x :: Split rest sep := by
  induction x with
  | nil => simp [Split]
  | cons c cs ih =>
    have hc : c ≠ sep := fun e => h (by simp [e])
    have hcs : sep ∉ cs := fun e => h (List.mem_cons_of_mem _ e)
    simp [Split, hc, ih hcs]

/-! ## Tag segments without `=` -/

theorem tagsLoop_bad_segment (orders : Nat → List (Bytes × replaceescaped))
    (segs : List Bytes) :
    (∃ seg ∈ segs, 61 ∉ seg) → ∀ (i : Nat) (tags : List (Bytes × Bytes)),
      tagsLoop orders i segs tags = none := by
  induction segs with
  | nil => intro h; simp at h
  | cons seg rest ih =>
    intro h i tags
    by_cases hseg : 61 ∈ seg
    · have hrest : ∃ seg2 ∈ rest, 61 ∉ seg2 := by
        obtain ⟨s2, hs2, hn⟩ := h
        rcases List.mem_cons.mp hs2 with h1 | h1
        · exact absurd (h1 ▸ hseg) hn
        · exact ⟨s2, h1, hn⟩
      rw [tagsLoop]
      split
      · exact ih hrest _ _
      · rfl
    · rw [tagsLoop, Split_of_not_mem seg 61 hseg]

/-! ## The loops of the drop commands -/

theorem dropDatabase_loop (name : Bytes) (dbs : List Database) :
    ∀ init : List Database,
      dbs.foldl (fun updateddbs db =>
          if db.Name ≠ name then updateddbs ++ [⟨db.Name, [], []⟩] else updateddbs) init
        = init ++ (dbs.filter (fun db => decide (db.Name ≠ name))).map
            (fun db => (⟨db.Name, [], []⟩ : Database)) := by
  induction dbs with
  | nil => intro init; simp
  | cons db rest ih =>
    intro init
    rw [List.foldl_cons, ih]
    by_cases h : db.Name = name
    · simp [List.filter, h]
    · simp [List.filter, h]

theorem dropPolicies_loop (name : Bytes) (k : Nat) :
    ∀ init : List RetentionPolicy,
      (List.replicate k zeroRetentionPolicy).foldl
        (fun acc rp =>
          if rp.Name ≠ name then acc ++ [⟨rp.Name, rp.Duration, rp.ReplicaN⟩] else acc) init
        = init ++ (if name = [] then [] else List.replicate k zeroRetentionPolicy) := by
  induction k with
  | zero => intro init; simp
  | succ k ih =>
    intro init
    rw [List.replicate_succ, List.foldl_cons, ih]
    by_cases h : name = []
    · simp [h, zeroRetentionPolicy]
    · have h2 : ¬ ([] : Bytes) = name := fun e => h e.symm
      simp [h, h2, zeroRetentionPolicy, List.replicate_succ]

/-! ## The escape protocol -/

theorem escapes_eq : escapes = [Esc.entry .comma, Esc.entry .quote, Esc.entry .space,
    Esc.entry .equals] := by
  decide

theorem mem_escapes (e : Bytes × replaceescaped) :
    e ∈ escapes ↔ ∃ i : Esc, e = Esc.entry i := by
  rw [escapes_eq]
  constructor
  · intro h
    simp only [List.mem_cons, List.mem_singleton, List.not_mem_nil, or_false] at h
    rcases h with h | h | h | h
    · exact ⟨_, h⟩
    · exact ⟨_, h⟩
    · exact ⟨_, h⟩
    · exact ⟨_, h⟩
  · rintro ⟨i, rfl⟩
    cases i <;> simp

theorem entry_inj (i j : Esc) : Esc.entry i = Esc.entry j ↔ i = j := by
  cases i <;> cases j <;> decide

/-! ### The scan of `strings.Replace` -/

theorem replaceScan_skip (old new : Bytes) (x : Bytes) :
    ∀ (k : Nat) (y : Bytes), x.length = k →
      replaceScan old new k (x ++ y) = replaceScan old new 0 y := by
  induction x with
  | nil => intro k y h; simp at h; subst h; rfl
  | cons c cs ih =>
    intro k y h
    cases k with
    | zero => simp at h
    | succ k =>
      simp only [List.cons_append, replaceScan]
      exact ih k y (by simpa using h)

theorem replaceScan_pass (old new : Bytes) (c : Nat) (s : Bytes)
    (h : startsWith (c :: s) old = false) :
    replaceScan old new 0 (c :: s) = c :: replaceScan old new 0 s := by
  simp [replaceScan, h]

/-! ### Forward substitution -/

theorem renderF_head_fwd (done : Esc → Bool) (i : Esc) (ts : List Tok)
    (h : ∀ c, ts.head? = some (.lit c) → escOf c = none) :
    startsWith (renderF done ts) [i.char] = false := by
  cases ts with
  | nil => simp [renderF, startsWith]
  | cons t ts =>
    cases t with
    | lit c =>
      have hc := h c rfl
      have : c ≠ i.char := by
        intro e
        subst e
        cases i <;> simp [escOf, Esc.char] at hc
      simp [renderF, startsWith, this]
    | esc j =>
      cases hd : done j <;> cases i <;> cases j <;>
        simp [renderF, startsWith, hd, Esc.char, Esc.token]

/-- One forward `strings.Replace`. -/
theorem replace_fwd (i : Esc) (done : Esc → Bool) (toks : List Tok) (hok : FwdOK toks) :
    Replace (renderF done toks) [92, i.char] i.token = renderF (markDone done i) toks := by
  unfold Replace
  induction toks with
  | nil => simp [renderF, replaceScan]
  | cons t ts ih =>
    obtain ⟨hhead, htail⟩ := hok
    cases t with
    | lit c =>
      have hs : startsWith (c :: renderF done ts) [92, i.char] = false := by
        by_cases hc : c = 92
        · subst hc
          have := renderF_head_fwd done i ts (hhead rfl)
          simpa [startsWith] using this
        · simp [startsWith, hc]
      simp only [renderF]
      rw [replaceScan_pass _ _ _ _ hs, ih htail]
    | esc j =>
      cases hd : done j with
      | true =>
        have hm : markDone done i j = true := by simp [markDone, hd]
        have ih2 := ih htail
        simp only [Esc.token] at ih2
        have hl : j.letter ≠ 92 := by cases j <;> simp [Esc.letter]
        simp only [renderF, hd, hm, if_true, Esc.token, List.cons_append, List.nil_append]
        simp [replaceScan, startsWith, hl, ih2]
      | false =>
        have ih2 := ih htail
        simp only [Esc.token] at ih2
        by_cases hji : j = i
        · subst hji
          have hm : markDone done j j = true := by simp [markDone]
          simp only [renderF, hd, hm, if_true, List.cons_append, List.nil_append, Esc.token]
          simp [replaceScan, startsWith, ih2]
        · have hm : markDone done i j = false := by simp [markDone, hji, hd]
          have hne : j.char ≠ i.char := by
            cases i <;> cases j <;> simp [Esc.char] at hji ⊢
          have hc : j.char ≠ 92 := by cases j <;> simp [Esc.char]
          simp only [renderF, hd, hm, List.cons_append, List.nil_append, Esc.token]
          simp [replaceScan, startsWith, hne, hc, ih2]

/-! ### Reverse substitution -/

theorem renderR_head_167 (done : Esc → Bool) (ts : List Tok) (p : Bytes)
    (h : ts.head? ≠ some (.lit 167)) :
    startsWith (renderR done ts) (167 :: p) = false := by
  cases ts with
  | nil => simp [renderR, startsWith]
  | cons t ts =>
    cases t with
    | lit c =>
      have hc : c ≠ 167 := by
        intro e
        exact h (by simp [e])
      simp [renderR, startsWith, hc]
    | esc j =>
      cases hd : done j <;> cases j <;>
        simp [renderR, startsWith, hd, Esc.char, Esc.token]

theorem renderR_head_sect (done : Esc → Bool) (ts : List Tok) (l : Nat) (p : Bytes)
    (hl : l ≠ 95) (hok : RevOK ts) :
    startsWith (renderR done ts) (194 :: 167 :: l :: p) = false := by
  cases ts with
  | nil => simp [renderR, startsWith]
  | cons t ts =>
    obtain ⟨hhead, _⟩ := hok
    cases t with
    | lit c =>
      by_cases hc : c = 194
      · subst hc
        have := renderR_head_167 done ts (l :: p) (hhead rfl)
        simpa [renderR, startsWith] using this
      · simp [renderR, startsWith, hc]
    | esc j =>
      have h2 : (95 : Nat) ≠ l := fun e => hl e.symm
      cases hd : done j <;> cases j <;>
        simp [renderR, startsWith, hd, Esc.char, Esc.token, h2]

theorem renderR_head_underscore (done : Esc → Bool) (ts : List Tok) (l : Nat) (p : Bytes)
    (hl : l ≠ 95) (hok : RevOK ts) :
    startsWith (renderR done ts) (95 :: 194 :: 167 :: l :: p) = false := by
  cases ts with
  | nil => simp [renderR, startsWith]
  | cons t ts =>
    obtain ⟨_, htail⟩ := hok
    cases t with
    | lit c =>
      have := renderR_head_sect done ts l p hl htail
      simp [renderR, startsWith, this]
    | esc j =>
      cases hd : done j <;> cases j <;>
        simp [renderR, startsWith, hd, Esc.char, Esc.token]

/-- One reverse `strings.Replace`. -/
theorem replace_rev (i : Esc) (done : Esc → Bool) (toks : List Tok) (hok : RevOK toks) :
    Replace (renderR done toks) i.token [i.char] = renderR (markDone done i) toks := by
  unfold Replace
  induction toks with
  | nil => simp [renderR, replaceScan]
  | cons t ts ih =>
    obtain ⟨hhead, htail⟩ := hok
    have ih2 := ih htail
    simp only [Esc.token] at ih2
    cases t with
    | lit c =>
      have hs : startsWith (c :: renderR done ts) i.token = false := by
        by_cases hc : c = 194
        · subst hc
          have := renderR_head_167 done ts [95, 194, 167, i.letter, 194, 167] (hhead rfl)
          simpa [startsWith, Esc.token] using this
        · simp [startsWith, Esc.token, hc]
      simp only [renderR]
      rw [replaceScan_pass _ _ _ _ hs, ih htail]
    | esc j =>
      cases hd : done j with
      | true =>
        have hm : markDone done i j = true := by simp [markDone, hd]
        have hc : j.char ≠ 194 := by cases j <;> simp [Esc.char]
        simp only [renderR, hd, hm, if_true, Esc.token, List.cons_append, List.nil_append]
        simp [replaceScan, startsWith, hc, ih2]
      | false =>
        by_cases hji : j = i
        · subst hji
          have hm : markDone done j j = true := by simp [markDone]
          simp only [renderR, hd, hm, if_true, List.cons_append, List.nil_append, Esc.token]
          simp [replaceScan, startsWith, ih2]
        · have hm : markDone done i j = false := by simp [markDone, hji, hd]
          have hne : j.letter ≠ i.letter := by
            cases i <;> cases j <;> simp [Esc.letter] at hji ⊢
          have h95 : j.letter ≠ 95 := by cases j <;> simp [Esc.letter]
          have h194 : j.letter ≠ 194 := by cases j <;> simp [Esc.letter]
          have hi95 : i.letter ≠ 95 := by cases i <;> simp [Esc.letter]
          have hlook := renderR_head_underscore done ts i.letter [194, 167] hi95 htail
          simp only [renderR, hd, hm, List.cons_append, List.nil_append, Esc.token]
          simp [replaceScan, startsWith, hne, h95, h194, hlook, ih2]

/-! ### The substitution loops, in any visiting order -/

theorem escapeName_render (toks : List Tok) (hok : FwdOK toks)
    (order : List (Bytes × replaceescaped)) :
    (∀ e ∈ order, e ∈ escapes) → ∀ done : Esc → Bool,
      escapeName order (renderF done toks)
        = renderF (fun j => done j || decide (Esc.entry j ∈ order)) toks := by
  induction order with
  | nil =>
    intro _ done
    simp [escapeName]
  | cons e rest ih =>
    intro hmem done
    obtain ⟨i, rfl⟩ := (mem_escapes e).mp (hmem e (List.mem_cons_self _ _))
    have hstep : escapeName (Esc.entry i :: rest) (renderF done toks)
        = escapeName rest (Replace (renderF done toks) [92, i.char] i.token) := by
      simp [escapeName, Esc.entry]
    rw [hstep, replace_fwd i done toks hok,
      ih (fun e2 h2 => hmem e2 (List.mem_cons_of_mem _ h2)) (markDone done i)]
    congr 1
    funext j
    by_cases hji : j = i
    · simp [markDone, hji]
    · simp [markDone, hji, entry_inj]

theorem unescapeTag_render (toks : List Tok) (hok : RevOK toks)
    (order : List (Bytes × replaceescaped)) :
    (∀ e ∈ order, e ∈ escapes) → ∀ done : Esc → Bool,
      unescapeTag order (renderR done toks)
        = renderR (fun j => done j || decide (Esc.entry j ∈ order)) toks := by
  induction order with
  | nil =>
    intro _ done
    simp [unescapeTag]
  | cons e rest ih =>
    intro hmem done
    obtain ⟨i, rfl⟩ := (mem_escapes e).mp (hmem e (List.mem_cons_self _ _))
    have hstep : unescapeTag (Esc.entry i :: rest) (renderR done toks)
        = unescapeTag rest (Replace (renderR done toks) i.token [i.char]) := by
      simp [unescapeTag, Esc.entry]
    rw [hstep, replace_rev i done toks hok,
      ih (fun e2 h2 => hmem e2 (List.mem_cons_of_mem _ h2)) (markDone done i)]
    congr 1
    funext j
    by_cases hji : j = i
    · simp [markDone, hji]
    · simp [markDone, hji, entry_inj]

theorem all_done_of_perm (order : List (Bytes × replaceescaped)) (h : order.Perm escapes) :
    (fun j => false || decide (Esc.entry j ∈ order)) = fun _ => true := by
  funext j
  have : Esc.entry j ∈ order := h.mem_iff.mpr ((mem_escapes _).mpr ⟨j, rfl⟩)
  simp [this]

/-- The forward substitution in any visiting order turns every escape pair into its
sentinel. -/
theorem escapeName_perm (toks : List Tok) (hok : FwdOK toks)
    (order : List (Bytes × replaceescaped)) (h : order.Perm escapes) :
    escapeName order (renderF (fun _ => false) toks) = renderF (fun _ => true) toks := by
  rw [escapeName_render toks hok order (fun e he => h.mem_iff.mp he), all_done_of_perm order h]

/-- The reverse substitution in any visiting order turns every sentinel into its
character. -/
theorem unescapeTag_perm (toks : List Tok) (hok : RevOK toks)
    (order : List (Bytes × replaceescaped)) (h : order.Perm escapes) :
    unescapeTag order (renderR (fun _ => false) toks) = renderR (fun _ => true) toks := by
  rw [unescapeTag_render toks hok order (fun e he => h.mem_iff.mp he), all_done_of_perm order h]

theorem renderF_true_eq_renderR_false (toks : List Tok) :
    renderF (fun _ => true) toks = renderR (fun _ => false) toks := by
  induction toks with
  | nil => rfl
  | cons t ts ih => cases t <;> simp [renderF, renderR, ih]

theorem renderF_append (done : Esc → Bool) (a b : List Tok) :
    renderF done (a ++ b) = renderF done a ++ renderF done b := by
  induction a with
  | nil => rfl
  | cons t ts ih => cases t <;> simp [renderF, ih]

theorem renderF_lits (done : Esc → Bool) (s : Bytes) : renderF done (s.map Tok.lit) = s := by
  induction s with
  | nil => rfl
  | cons c cs ih => simp [renderF, ih]

/-! ### Tag values -/

theorem escOf_char (c : Nat) (i : Esc) (h : escOf c = some i) : i.char = c := by
  unfold escOf at h
  split at h
  · cases h; simp [Esc.char, *]
  · split at h
    · cases h; simp [Esc.char, *]
    · split at h
      · cases h; simp [Esc.char, *]
      · split at h
        · cases h; simp [Esc.char, *]
        · cases h

theorem escapeValue_eq_render (v : Bytes) :
    escapeValue v = renderF (fun _ => false) (valueToks v) := by
  induction v with
  | nil => rfl
  | cons c cs ih =>
    cases h : escOf c with
    | none => simp [escapeValue, valueToks, renderF, h, ih]
    | some i => simp [escapeValue, valueToks, renderF, h, ih, escOf_char c i h]

theorem renderR_valueToks (v : Bytes) : renderR (fun _ => true) (valueToks v) = v := by
  induction v with
  | nil => rfl
  | cons c cs ih =>
    cases h : escOf c with
    | none => simp [valueToks, renderR, h, ih]
    | some i => simp [valueToks, renderR, h, ih, escOf_char c i h]

theorem valueToks_lit (v : Bytes) (c : Nat) (h : Tok.lit c ∈ valueToks v) :
    escOf c = none ∧ c ∈ v := by
  induction v with
  | nil => simp [valueToks] at h
  | cons d ds ih =>
    cases hd : escOf d with
    | none =>
      simp only [valueToks, hd, List.mem_cons, Tok.lit.injEq] at h
      rcases h with h | h
      · subst h
        exact ⟨hd, by simp⟩
      · exact ⟨(ih h).1, List.mem_cons_of_mem _ (ih h).2⟩
    | some i =>
      simp only [valueToks, hd, List.mem_cons, reduceCtorEq, false_or] at h
      exact ⟨(ih h).1, List.mem_cons_of_mem _ (ih h).2⟩

theorem FwdOK_valueToks (v : Bytes) : FwdOK (valueToks v) := by
  induction v with
  | nil => trivial
  | cons c cs ih =>
    have hnext : ∀ d, (valueToks cs).head? = some (Tok.lit d) → escOf d = none := by
      intro d hd
      exact (valueToks_lit cs d (List.mem_of_mem_head? hd)).1
    cases h : escOf c with
    | none =>
      simp only [valueToks, h]
      exact ⟨fun _ => hnext, ih⟩
    | some i =>
      simp only [valueToks, h]
      exact ⟨fun _ => hnext, ih⟩

theorem FwdOK_of_no_backslash (toks : List Tok) (h : Tok.lit 92 ∉ toks) : FwdOK toks := by
  induction toks with
  | nil => trivial
  | cons t ts ih =>
    refine ⟨fun e => absurd (by simp [e]) h, ih (fun e => h (List.mem_cons_of_mem _ e))⟩

theorem RevOK_valueToks (v : Bytes) (h : hasSect v = false) : RevOK (valueToks v) := by
  induction v with
  | nil => trivial
  | cons c cs ih =>
    have htail : hasSect cs = false := by
      cases cs with
      | nil => rfl
      | cons d ds =>
        simp only [hasSect, Bool.or_eq_false_iff] at h
        exact h.2
    have hhead : Tok.lit c = Tok.lit 194 → (valueToks cs).head? ≠ some (Tok.lit 167) := by
      intro hc hd
      simp only [Tok.lit.injEq] at hc
      subst hc
      cases cs with
      | nil => simp [valueToks] at hd
      | cons d ds =>
        cases hdd : escOf d with
        | none =>
          simp only [valueToks, hdd, List.head?_cons, Option.some.injEq, Tok.lit.injEq] at hd
          subst hd
          simp [hasSect] at h
        | some i => simp [valueToks, hdd] at hd
    cases hc : escOf c with
    | none =>
      simp only [valueToks, hc]
      exact ⟨hhead, ih htail⟩
    | some i =>
      simp only [valueToks, hc]
      exact ⟨fun e => (by cases e), ih htail⟩

theorem token_plain (i : Esc) : ∀ x ∈ i.token, escOf x = none := by
  cases i <;> decide

/-- The forward-substituted form of an escaped tag value holds none of `,` `"` space `=`. -/
theorem sentinel_form_plain (v : Bytes) :
    ∀ x ∈ renderR (fun _ => false) (valueToks v), escOf x = none := by
  induction v with
  | nil => intro x hx; simp [valueToks, renderR] at hx
  | cons c cs ih =>
    intro x hx
    cases hc : escOf c with
    | none =>
      simp only [valueToks, hc, renderR, List.mem_cons] at hx
      rcases hx with hx | hx
      · exact hx ▸ hc
      · exact ih x hx
    | some i =>
      simp only [valueToks, hc, renderR, Bool.false_eq_true, if_false, List.mem_append] at hx
      rcases hx with hx | hx
      · exact token_plain i x hx
      · exact ih x hx

/-- An escaped tag value, forward-substituted in any order and reverse-substituted in any
order, is the value again, provided the value holds no section sign. -/
theorem unescape_escape_value (v : Bytes) (hsect : hasSect v = false)
    (fwd rev : List (Bytes × replaceescaped)) (hfwd : fwd.Perm escapes)
    (hrev : rev.Perm escapes) :
    escapeName fwd (escapeValue v) = renderR (fun _ => false) (valueToks v)
    ∧ unescapeTag rev (renderR (fun _ => false) (valueToks v)) = v := by
  constructor
  · rw [escapeValue_eq_render, escapeName_perm _ (FwdOK_valueToks v) fwd hfwd,
      renderF_true_eq_renderR_false]
  · rw [unescapeTag_perm _ (RevOK_valueToks v hsect) rev hrev, renderR_valueToks]

/-! ### Whole keys -/

theorem renderF_keyToks (done : Esc → Bool) (m : Bytes) (tags : List (Bytes × Bytes)) :
    renderF done (keyToks m tags)
      = m ++ (tags.map (fun t => 44 :: (t.1 ++ 61 :: renderF done (valueToks t.2)))).flatten := by
  unfold keyToks
  rw [renderF_append, renderF_lits]
  congr 1
  induction tags with
  | nil => rfl
  | cons t ts ih =>
    rw [List.map_cons, List.flatten_cons, renderF_append, ih]
    simp [renderF, renderF_append, renderF_lits]

theorem buildKey_eq_render (m : Bytes) (tags : List (Bytes × Bytes)) :
    buildKey m tags = renderF (fun _ => false) (keyToks m tags) := by
  rw [renderF_keyToks]
  unfold buildKey
  simp only [escapeValue_eq_render]

theorem keyToks_no_backslash (m : Bytes) (tags : List (Bytes × Bytes)) (hm : 92 ∉ m)
    (htags : ∀ t ∈ tags, 92 ∉ t.1 ∧ 92 ∉ t.2) : Tok.lit 92 ∉ keyToks m tags := by
  intro h
  unfold keyToks at h
  rcases List.mem_append.mp h with h | h
  · obtain ⟨c, hc, hcc⟩ := List.mem_map.mp h
    simp only [Tok.lit.injEq] at hcc
    exact hm (hcc ▸ hc)
  · obtain ⟨l, hl, hin⟩ := List.mem_flatten.mp h
    obtain ⟨t, ht, rfl⟩ := List.mem_map.mp hl
    obtain ⟨hk, hv⟩ := htags t ht
    simp only [List.mem_cons, Tok.lit.injEq, List.mem_append, List.mem_map] at hin
    rcases hin with hin | hin | hin | hin
    · omega
    · obtain ⟨c, hc, hcc⟩ := hin
      exact hk (hcc ▸ hc)
    · omega
    · exact hv (valueToks_lit t.2 92 hin).2

theorem Split_segments (segs : List Bytes) (hsegs : ∀ seg ∈ segs, 44 ∉ seg) :
    ∀ m : Bytes, 44 ∉ m →
      Split (m ++ (segs.map (fun seg => 44 :: seg)).flatten) 44 = m :: segs := by
  induction segs with
  | nil =>
    intro m hm
    simpa using Split_of_not_mem m 44 hm
  | cons seg rest ih =>
    intro m hm
    simp only [List.map_cons, List.flatten_cons, List.cons_append]
    rw [Split_append_sep m _ 44 hm,
      ih (fun s hs => hsegs s (List.mem_cons_of_mem _ hs)) seg (hsegs seg (List.mem_cons_self _ _))]

theorem not_mem_of_escOf_none (x : Nat) (s : Bytes) (hx : escOf x ≠ none)
    (hs : ∀ y ∈ s, escOf y = none) : x ∉ s :=
  fun h => hx (hs x h)

theorem tagsLoop_segments (revs : Nat → List (Bytes × replaceescaped))
    (hrevs : ∀ i, (revs i).Perm escapes) (tags : List (Bytes × Bytes)) :
    (∀ t ∈ tags, 61 ∉ t.1 ∧ hasSect t.2 = false) →
    ∀ (i : Nat) (acc : List (Bytes × Bytes)),
      tagsLoop revs i
          (tags.map (fun t => t.1 ++ 61 :: renderR (fun _ => false) (valueToks t.2))) acc
        = some (tags.foldl (fun a t => mapSet a t.1 t.2) acc) := by
  induction tags with
  | nil => intro _ i acc; rfl
  | cons t ts ih =>
    intro h i acc
    obtain ⟨hk, hv⟩ := h t (List.mem_cons_self _ _)
    have hplain : 61 ∉ renderR (fun _ => false) (valueToks t.2) :=
      not_mem_of_escOf_none 61 _ (by decide) (sentinel_form_plain t.2)
    have hsplit : Split (t.1 ++ 61 :: renderR (fun _ => false) (valueToks t.2)) 61
        = [t.1, renderR (fun _ => false) (valueToks t.2)] := by
      rw [Split_append_sep t.1 _ 61 hk, Split_of_not_mem _ 61 hplain]
    have hun : unescapeTag (revs i) (renderR (fun _ => false) (valueToks t.2)) = t.2 := by
      rw [unescapeTag_perm _ (RevOK_valueToks t.2 hv) (revs i) (hrevs i), renderR_valueToks]
    simp only [List.map_cons, tagsLoop, hsplit, hun, List.foldl_cons]
    exact ih (fun t2 h2 => h t2 (List.mem_cons_of_mem _ h2)) (i + 1) (mapSet acc t.1 t.2)

theorem mapSet_fresh {β : Type} (m : List (Bytes × β)) (k : Bytes) (v : β)
    (h : k ∉ mapKeys m) : mapSet m k v = m ++ [(k, v)] := by
  induction m with
  | nil => rfl
  | cons p rest ih =>
    obtain ⟨k0, v0⟩ := p
    simp only [mapKeys, List.map_cons, List.mem_cons, not_or] at h
    have hne : k0 ≠ k := fun e => h.1 e.symm
    simp only [mapSet, hne, if_false, List.cons_append]
    rw [ih h.2]

theorem foldl_mapSet_distinct (tags : List (Bytes × Bytes)) :
    ∀ acc : List (Bytes × Bytes), (mapKeys (acc ++ tags)).Nodup →
      tags.foldl (fun a t => mapSet a t.1 t.2) acc = acc ++ tags := by
  induction tags with
  | nil => intro acc _; simp
  | cons t ts ih =>
    intro acc hnd
    have hfresh : t.1 ∉ mapKeys acc := by
      intro hin
      simp only [mapKeys, List.map_append, List.map_cons] at hnd hin
      have := (List.nodup_append.mp hnd).2.2
      exact this hin (List.mem_cons_self _ _)
    rw [List.foldl_cons, mapSet_fresh acc t.1 t.2 hfresh]
    have hassoc : acc ++ [(t.1, t.2)] ++ ts = acc ++ t :: ts := by simp
    rw [ih (acc ++ [(t.1, t.2)]) (by rw [hassoc]; exact hnd), hassoc]

/-! ### The value `§_§a,` -/

theorem Join_single (p : Bytes) (sep : Nat) : Join [p] sep = p := rfl

theorem unescapeTag_fixed (y : Bytes)
    (hy : ∀ e ∈ escapes, Replace y e.2.newtoken e.2.replaced = y)
    (order : List (Bytes × replaceescaped)) (horder : ∀ e ∈ order, e ∈ escapes) :
    unescapeTag order y = y := by
  induction order with
  | nil => rfl
  | cons e rest ih =>
    have hstep : unescapeTag (e :: rest) y
        = unescapeTag rest (Replace y e.2.newtoken e.2.replaced) := by
      simp [unescapeTag]
    rw [hstep, hy e (horder e (List.mem_cons_self _ _))]
    exact ih (fun e2 h2 => horder e2 (List.mem_cons_of_mem _ h2))

/-- The failure of the codec law on `§_§a,` does not depend on the visiting orders: in every
order of the forward loop and of the reverse loop the pipeline returns `,_§a§`. -/
theorem partial_sentinel_any_order (fwd rev : List (Bytes × replaceescaped))
    (hfwd : fwd.Perm escapes) (hrev : rev.Perm escapes) :
    roundTrip fwd rev (str "§_§a,") = str ",_§a§" := by
  have hf : escapeName fwd (escapeValue (str "§_§a,")) = str "§_§a§_§a§" := by
    rw [escapeValue_eq_render, escapeName_perm _ (FwdOK_valueToks _) fwd hfwd]
    decide
  have hs1 : Split (str "§_§a§_§a§") 44 = [str "§_§a§_§a§"] := by decide
  have hs2 : Split (str "§_§a§_§a§") 61 = [str "§_§a§_§a§"] := by decide
  have hx : ∀ e ∈ escapes, e ≠ Esc.entry .comma →
      Replace (str "§_§a§_§a§") e.2.newtoken e.2.replaced = str "§_§a§_§a§" := by decide
  have hc : Replace (str "§_§a§_§a§") (Esc.entry .comma).2.newtoken (Esc.entry .comma).2.replaced
      = str ",_§a§" := by decide
  have hy : ∀ e ∈ escapes, Replace (str ",_§a§") e.2.newtoken e.2.replaced = str ",_§a§" := by
    decide
  have hrevAll : ∀ order : List (Bytes × replaceescaped), (∀ e ∈ order, e ∈ escapes) →
      Esc.entry .comma ∈ order → unescapeTag order (str "§_§a§_§a§") = str ",_§a§" := by
    intro order
    induction order with
    | nil => intro _ h; simp at h
    | cons e rest ih =>
      intro hmem hin
      have hstep : unescapeTag (e :: rest) (str "§_§a§_§a§")
          = unescapeTag rest (Replace (str "§_§a§_§a§") e.2.newtoken e.2.replaced) := by
        simp [unescapeTag]
      rw [hstep]
      by_cases he : e = Esc.entry .comma
      · rw [he, hc]
        exact unescapeTag_fixed _ hy rest (fun e2 h2 => hmem e2 (List.mem_cons_of_mem _ h2))
      · rw [hx e (hmem e (List.mem_cons_self _ _)) he]
        refine ih (fun e2 h2 => hmem e2 (List.mem_cons_of_mem _ h2)) ?_
        rcases List.mem_cons.mp hin with h | h
        · exact absurd h.symm he
        · exact h
  unfold roundTrip
  rw [hf, hs1, Join_single, hs2, Join_single]
  exact hrevAll rev (fun e he => hrev.mem_iff.mp he)
    (hrev.mem_iff.mpr ((mem_escapes _).mpr ⟨.comma, rfl⟩))

/-! ## The catalog fold -/

theorem createRetentionPolicy_noInternal (database : Bytes) (rp : RetentionPolicy)
    (dbs : List Database) (h : NoInternal dbs) :
    NoInternal (createRetentionPolicy database rp dbs) := by
  induction dbs with
  | nil => exact h
  | cons db rest ih =>
    have hdb := h db (List.mem_cons_self _ _)
    have hrest : NoInternal rest := fun x hx => h x (List.mem_cons_of_mem _ hx)
    unfold createRetentionPolicy
    by_cases hn : db.Name = database
    · cases hs : HasSuffix rp.Name (str "internal") with
      | true =>
        simp only [hn, hs, if_true]
        intro x hx
        rcases List.mem_cons.mp hx with hx | hx
        · exact hx ▸ hdb
        · exact ih hrest x hx
      | false =>
        simp only [hn, hs, if_true, Bool.false_eq_true, if_false]
        intro x hx
        rcases List.mem_cons.mp hx with hx | hx
        · subst hx
          refine ⟨hn ▸ hdb.1, ?_⟩
          intro p hp
          rcases List.mem_append.mp hp with hp | hp
          · exact hdb.2 p hp
          · simp only [List.mem_singleton] at hp
            exact hp ▸ hs
        · exact hrest x hx
    · simp only [hn, if_false]
      intro x hx
      rcases List.mem_cons.mp hx with hx | hx
      · exact hx ▸ hdb
      · exact ih hrest x hx

theorem internal_not_suffix_of_empty : HasSuffix [] (str "internal") = false := by decide

theorem dropPolicies_noInternal (policies : List RetentionPolicy) (name : Bytes)
    (h : ∀ rp ∈ policies, HasSuffix rp.Name (str "internal") = false) :
    ∀ rp ∈ dropPolicies policies name, HasSuffix rp.Name (str "internal") = false := by
  unfold dropPolicies
  split
  · simp only
    rw [dropPolicies_loop]
    intro rp hrp
    have hz : rp = zeroRetentionPolicy := by
      rcases List.mem_append.mp hrp with hrp | hrp
      · exact List.eq_of_mem_replicate hrp
      · split at hrp
        · simp at hrp
        · exact List.eq_of_mem_replicate hrp
    rw [hz]
    exact internal_not_suffix_of_empty
  · exact h

theorem dropRetentionPolicy_noInternal (database name : Bytes) (dbs : List Database)
    (h : NoInternal dbs) : NoInternal (dropRetentionPolicy database name dbs) := by
  induction dbs with
  | nil => exact h
  | cons db rest ih =>
    have hdb := h db (List.mem_cons_self _ _)
    have hrest : NoInternal rest := fun x hx => h x (List.mem_cons_of_mem _ hx)
    unfold dropRetentionPolicy
    by_cases hn : db.Name = database
    · simp only [hn, if_true]
      intro x hx
      rcases List.mem_cons.mp hx with hx | hx
      · subst hx
        exact ⟨hn ▸ hdb.1, dropPolicies_noInternal db.Policies name hdb.2⟩
      · exact hrest x hx
    · simp only [hn, if_false]
      intro x hx
      rcases List.mem_cons.mp hx with hx | hx
      · exact hx ▸ hdb
      · exact ih hrest x hx

theorem setDefaultRetentionPolicy_noInternal (database name : Bytes) (dbs : List Database)
    (h : NoInternal dbs) : NoInternal (setDefaultRetentionPolicy database name dbs) := by
  induction dbs with
  | nil => exact h
  | cons db rest ih =>
    have hdb := h db (List.mem_cons_self _ _)
    have hrest : NoInternal rest := fun x hx => h x (List.mem_cons_of_mem _ hx)
    unfold setDefaultRetentionPolicy
    by_cases hn : db.Name = database
    · simp only [hn, if_true]
      intro x hx
      rcases List.mem_cons.mp hx with hx | hx
      · subst hx
        exact ⟨hn ▸ hdb.1, hdb.2⟩
      · exact hrest x hx
    · simp only [hn, if_false]
      intro x hx
      rcases List.mem_cons.mp hx with hx | hx
      · exact hx ▸ hdb
      · exact ih hrest x hx

theorem dropDatabase_noInternal (dbs : List Database) (name : Bytes) (h : NoInternal dbs) :
    NoInternal (dropDatabase dbs name) := by
  unfold dropDatabase
  split
  · rw [dropDatabase_loop]
    intro x hx
    rcases List.mem_append.mp hx with hx | hx
    · have hz : x = zeroDatabase := List.eq_of_mem_replicate hx
      subst hz
      exact ⟨internal_not_suffix_of_empty, by intro rp hrp; simp [zeroDatabase] at hrp⟩
    · obtain ⟨db, hdb, rfl⟩ := List.mem_map.mp hx
      have hmem : db ∈ dbs := (List.mem_filter.mp hdb).1
      exact ⟨(h db hmem).1, by intro rp hrp; simp at hrp⟩
  · exact h

/-- One command keeps the catalog free of internal names. -/
theorem applycommand_noInternal (dbs : List Database) (cmd : Option Command)
    (h : NoInternal dbs) : NoInternal (applycommand dbs cmd) := by
  cases cmd with
  | none => exact h
  | some c =>
    cases c with
    | CreateDatabase name =>
      simp only [applycommand]
      cases hs : HasSuffix name (str "internal") with
      | true => simpa using h
      | false =>
        simp only [Bool.false_eq_true, if_false]
        intro x hx
        rcases List.mem_append.mp hx with hx | hx
        · exact h x hx
        · simp only [List.mem_singleton] at hx
          subst hx
          exact ⟨hs, by intro rp hrp; simp at hrp⟩
    | DropDatabase name => exact dropDatabase_noInternal dbs name h
    | CreateRetentionPolicy database name duration replicaN =>
      exact createRetentionPolicy_noInternal database _ dbs h
    | DropRetentionPolicy database name => exact dropRetentionPolicy_noInternal database name dbs h
    | SetDefaultRetentionPolicy database name =>
      exact setDefaultRetentionPolicy_noInternal database name dbs h
    | Other => exact h

theorem foldl_applycommand_noInternal (log : List (Option Command)) :
    ∀ dbs : List Database, NoInternal dbs → NoInternal (log.foldl applycommand dbs) := by
  induction log with
  | nil => intro dbs h; exact h
  | cons c rest ih =>
    intro dbs h
    exact ih _ (applycommand_noInternal dbs c h)

theorem createRetentionPolicy_first (d : Bytes) (rp : RetentionPolicy) (pre : List Database)
    (db : Database) (post : List Database) (hpre : ∀ x ∈ pre, x.Name ≠ d) (hdb : db.Name = d)
    (hrp : HasSuffix rp.Name (str "internal") = false) :
    createRetentionPolicy d rp (pre ++ db :: post)
      = pre ++ { db with Policies := db.Policies ++ [rp] } :: post := by
  induction pre with
  | nil => simp [createRetentionPolicy, hdb, hrp]
  | cons x xs ih =>
    have hx : x.Name ≠ d := hpre x (List.mem_cons_self _ _)
    rw [List.cons_append, createRetentionPolicy, if_neg hx,
      ih (fun y hy => hpre y (List.mem_cons_of_mem _ hy))]
    rfl

theorem setDefaultRetentionPolicy_first (d name : Bytes) (pre : List Database)
    (db : Database) (post : List Database) (hpre : ∀ x ∈ pre, x.Name ≠ d) (hdb : db.Name = d) :
    setDefaultRetentionPolicy d name (pre ++ db :: post)
      = pre ++ { db with DefaultRetentionPolicy := name } :: post := by
  induction pre with
  | nil => simp [setDefaultRetentionPolicy, hdb]
  | cons x xs ih =>
    have hx : x.Name ≠ d := hpre x (List.mem_cons_self _ _)
    rw [List.cons_append, setDefaultRetentionPolicy, if_neg hx,
      ih (fun y hy => hpre y (List.mem_cons_of_mem _ hy))]
    rfl

/-! ## The entries of a bz1 block -/

theorem length_frameEntry (e : Nat × Bytes) : (frameEntry e).length = 12 + e.2.length := by
  simp [frameEntry, length_bePut]
  omega

theorem entryDataSize_frameEntry (e : Nat × Bytes) (rest : Bytes) (he : e.2.length < 2 ^ 32) :
    entryDataSize (frameEntry e ++ rest) = e.2.length := by
  have h8 := length_bePut 8 e.1
  have h4 := length_bePut 4 e.2.length
  have htd : ((frameEntry e ++ rest).take 12).drop 8 = bePut 4 e.2.length := by
    have hsplit : frameEntry e ++ rest
        = (bePut 8 e.1 ++ bePut 4 e.2.length) ++ (e.2 ++ rest) := by
      simp [frameEntry]
    rw [hsplit, List.take_left' (by simp [h8, h4]), List.drop_left' h8]
  unfold entryDataSize
  rw [htd, beUint_bePut]
  exact Nat.mod_eq_of_lt (by norm_num at he ⊢; exact he)

/-- One iteration of the splitting loop on a framed entry. -/
theorem splitEntries_frameEntry (e : Nat × Bytes) (he : e.2.length < 2 ^ 32) (fuel : Nat)
    (rest : Bytes) (entries : List Bytes) :
    splitEntries (fuel + 1) (frameEntry e ++ rest) entries
      = splitEntries fuel rest (entries ++ [frameEntry e]) := by
  have hlen := length_frameEntry e
  have hds := entryDataSize_frameEntry e rest he
  have h0 : ¬ (frameEntry e ++ rest).length = 0 := by
    rw [List.length_append, hlen]; omega
  have h12 : ¬ (frameEntry e ++ rest).length < 12 := by
    rw [List.length_append, hlen]; omega
  have hfull : ¬ (frameEntry e ++ rest).length < entryHeaderSize + e.2.length := by
    rw [List.length_append, hlen]; simp [entryHeaderSize]
  have hn : entryHeaderSize + e.2.length = (frameEntry e).length := by
    rw [hlen]; simp [entryHeaderSize]
  rw [splitEntries, hds]
  simp only [h0, h12, hfull, if_false]
  rw [hn, List.drop_left, List.take_left]

theorem splitEntries_frames (es : List (Nat × Bytes)) :
    (∀ e ∈ es, e.2.length < 2 ^ 32) →
    ∀ (fuel : Nat) (entries : List Bytes), es.length ≤ fuel →
      splitEntries fuel (frameEntries es) entries = some (entries ++ es.map frameEntry) := by
  induction es with
  | nil =>
    intro _ fuel entries _
    cases fuel <;> simp [splitEntries, frameEntries]
  | cons e rest ih =>
    intro h fuel entries hfuel
    cases fuel with
    | zero => simp at hfuel
    | succ fuel =>
      have hsplit : frameEntries (e :: rest) = frameEntry e ++ frameEntries rest := by
        simp [frameEntries]
      rw [hsplit, splitEntries_frameEntry e (h e (List.mem_cons_self _ _)),
        ih (fun x hx => h x (List.mem_cons_of_mem _ hx)) fuel _ (by simpa using hfuel)]
      simp

theorem length_le_frameEntries (es : List (Nat × Bytes)) :
    es.length ≤ (frameEntries es).length := by
  induction es with
  | nil => simp [frameEntries]
  | cons e rest ih =>
    have hsplit : frameEntries (e :: rest) = frameEntry e ++ frameEntries rest := by
      simp [frameEntries]
    rw [hsplit, List.length_append, length_frameEntry, List.length_cons]
    omega

theorem frameEntry_decode (e : Nat × Bytes) (he : e.1 < 2 ^ 64) :
    (btou64 ((frameEntry e).take 8), (frameEntry e).drop entryHeaderSize) = e := by
  have h8 := length_bePut 8 e.1
  have h4 := length_bePut 4 e.2.length
  have ht : ((frameEntry e).take 8).take 8 = bePut 8 e.1 := by
    rw [List.take_take]
    simp only [frameEntry, Nat.min_self]
    exact List.take_left' h8
  have hd : (frameEntry e).drop entryHeaderSize = e.2 := by
    have hsplit : frameEntry e = (bePut 8 e.1 ++ bePut 4 e.2.length) ++ e.2 := by
      simp [frameEntry]
    rw [hsplit]
    exact List.drop_left' (by simp [h8, h4, entryHeaderSize])
  have hb : e.1 % 256 ^ 8 = e.1 := Nat.mod_eq_of_lt (by norm_num at he ⊢; exact he)
  unfold btou64
  rw [ht, hd, beUint_bePut, hb]

/-- The fuel `len(buf)` of the splitting loop never runs out. -/
theorem splitEntries_fuel (fuel : Nat) :
    ∀ (buf : Bytes) (entries : List Bytes), buf.length ≤ fuel →
      splitEntries (fuel + 1) buf entries = splitEntries fuel buf entries := by
  induction fuel with
  | zero =>
    intro buf entries h
    have : buf = [] := List.length_eq_zero.mp (Nat.le_zero.mp h)
    subst this
    simp [splitEntries]
  | succ fuel ih =>
    intro buf entries h
    conv_lhs => rw [splitEntries]
    conv_rhs => rw [splitEntries]
    by_cases h0 : buf.length = 0
    · simp [h0]
    · simp only [h0, if_false]
      by_cases h12 : buf.length < 12
      · simp [h12]
      · simp only [h12, if_false]
        by_cases hfull : buf.length < entryHeaderSize + entryDataSize buf
        · simp [hfull]
        · simp only [hfull, if_false]
          apply ih
          simp only [List.length_drop, entryHeaderSize]
          omega

/-! ## The event sequence of `GetPoints` -/

theorem prefix_of_append_eq {α : Type} (x : α) (A : List α) :
    ∀ (B pre post : List α), x ∉ A → A ++ B = pre ++ x :: post → ∃ mid, pre = A ++ mid := by
  induction A with
  | nil => intro B pre post _ _; exact ⟨pre, rfl⟩
  | cons a A ih =>
    intro B pre post hx h
    cases pre with
    | nil =>
      simp only [List.cons_append, List.nil_append, List.cons.injEq] at h
      exact absurd (by simp [h.1]) hx
    | cons p pre =>
      simp only [List.cons_append, List.cons.injEq] at h
      obtain ⟨mid, hmid⟩ := ih B pre post (fun e => hx (List.mem_cons_of_mem _ e)) h.2
      exact ⟨mid, by simp [h.1, hmid]⟩

theorem points_not_mem_catalog (bp : BatchPoints) (dbs : List Database) :
    Event.points bp ∉ dbs.map Event.database ++ [Event.closeDatabases] := by
  intro h
  rcases List.mem_append.mp h with h | h
  · obtain ⟨db, _, hdb⟩ := List.mem_map.mp h
    cases hdb
  · simp at h

/-! ## The first `=` of a tag segment -/

theorem keyTokens_head (s : Bytes) (x : Nat) (h : (keyTokens s).head? = some (Tok.lit x)) :
    s.head? = some x := by
  match s with
  | [] => simp [keyTokens] at h
  | [c] => simpa [keyTokens] using h
  | c :: d :: s =>
    unfold keyTokens at h
    by_cases hc : c = 92
    · cases hd : escOf d with
      | some i => simp [hc, hd] at h
      | none => simpa [hc, hd] using h
    · simpa [hc] using h

theorem renderF_keyTokens_all (s : Bytes) : renderF (fun _ => false) (keyTokens s) = s := by
  match s with
  | [] => rfl
  | [c] => rfl
  | c :: d :: s =>
    unfold keyTokens
    by_cases hc : c = 92
    · cases hd : escOf d with
      | some i =>
        simp only [hc, hd, if_true, renderF, Bool.false_eq_true, if_false]
        rw [renderF_keyTokens_all s, escOf_char d i hd]
        rfl
      | none =>
        simp only [hc, hd, if_true, renderF]
        rw [renderF_keyTokens_all (d :: s)]
    · simp only [hc, if_false, renderF]
      rw [renderF_keyTokens_all (d :: s)]

theorem FwdOK_keyTokens (s : Bytes) : FwdOK (keyTokens s) := by
  match s with
  | [] => trivial
  | [c] => exact ⟨fun _ _ h => (by simp at h), trivial⟩
  | c :: d :: s =>
    unfold keyTokens
    by_cases hc : c = 92
    · cases hd : escOf d with
      | some i =>
        simp only [hc, hd, if_true]
        exact ⟨fun e => (by cases e), FwdOK_keyTokens s⟩
      | none =>
        simp only [hc, hd, if_true]
        refine ⟨fun _ x hx => ?_, FwdOK_keyTokens (d :: s)⟩
        have := keyTokens_head (d :: s) x hx
        simp only [List.head?_cons, Option.some.injEq] at this
        exact this ▸ hd
    · simp only [hc, if_false]
      refine ⟨fun e => ?_, FwdOK_keyTokens (d :: s)⟩
      simp only [Tok.lit.injEq] at e
      exact absurd e hc

theorem hasSect_tail (c : Nat) (s : Bytes) (h : hasSect (c :: s) = false) :
    hasSect s = false := by
  cases s with
  | nil => rfl
  | cons d ds =>
    simp only [hasSect, Bool.or_eq_false_iff] at h
    exact h.2

theorem RevOK_keyTokens (s : Bytes) (h : hasSect s = false) : RevOK (keyTokens s) := by
  match s with
  | [] => trivial
  | [c] => exact ⟨fun _ h2 => (by simp at h2), trivial⟩
  | c :: d :: s =>
    have hds : hasSect (d :: s) = false := hasSect_tail c (d :: s) h
    have hs : hasSect s = false := hasSect_tail d s hds
    have hhead : Tok.lit c = Tok.lit 194 → (keyTokens (d :: s)).head? ≠ some (Tok.lit 167) := by
      intro hc hd
      simp only [Tok.lit.injEq] at hc
      have := keyTokens_head (d :: s) 167 hd
      simp only [List.head?_cons, Option.some.injEq] at this
      subst hc
      subst this
      simp [hasSect] at h
    unfold keyTokens
    by_cases hc : c = 92
    · cases hd : escOf d with
      | some i =>
        simp only [hc, hd, if_true]
        exact ⟨fun e => (by cases e), RevOK_keyTokens s hs⟩
      | none =>
        simp only [hc, hd, if_true]
        exact ⟨fun e => absurd e (by simp), RevOK_keyTokens (d :: s) hds⟩
    · simp only [hc, if_false]
      exact ⟨hhead, RevOK_keyTokens (d :: s) hds⟩

/-- The forward substitution of any key, in any visiting order. -/
theorem escapeName_any_key (key : Bytes) (fwd : List (Bytes × replaceescaped))
    (hfwd : fwd.Perm escapes) :
    escapeName fwd key = renderR (fun _ => false) (keyTokens key) := by
  conv_lhs => rw [← renderF_keyTokens_all key]
  rw [escapeName_perm _ (FwdOK_keyTokens key) fwd hfwd, renderF_true_eq_renderR_false]

theorem Split_append_left (x : Bytes) (sep : Nat) (h : sep ∉ x) (y : Bytes) :
    Split (x ++ y) sep
      = match Split y sep with
        | [] => [x]
        | p :: t => (x ++ p) :: t := by
  induction x with
  | nil =>
    cases hs : Split y sep with
    | nil => exact absurd hs (Split_ne_nil y sep)
    | cons p t => simp [hs]
  | cons c cs ih =>
    have hc : c ≠ sep := fun e => h (by simp [e])
    have hcs : sep ∉ cs := fun e => h (List.mem_cons_of_mem _ e)
    rw [List.cons_append, Split, if_neg hc, ih hcs]
    cases Split y sep <;> simp

theorem Split_render (sep : Nat) (hsep : ∀ i : Esc, sep ∉ i.token) (toks : List Tok) :
    Split (renderR (fun _ => false) toks) sep
      = (splitToks sep toks).map (renderR (fun _ => false)) := by
  induction toks with
  | nil => simp [renderR, Split, splitToks]
  | cons t ts ih =>
    cases t with
    | lit c =>
      by_cases hc : c = sep
      · simp [renderR, Split, splitToks, hc, ih]
      · have hne : ¬ Tok.lit c = Tok.lit sep := by simpa using hc
        simp only [renderR, Split, splitToks, hc, hne, if_false, ih]
        cases splitToks sep ts <;> simp [renderR]
    | esc i =>
      have hne : ¬ Tok.esc i = Tok.lit sep := by simp
      simp only [renderR, Bool.false_eq_true, if_false, splitToks, hne]
      rw [Split_append_left _ sep (hsep i), ih]
      cases splitToks sep ts <;> simp [renderR]

theorem splitToks_head (sep : Nat) (ts : List Tok) (p : List Tok) (r : List (List Tok))
    (x : Tok) (h : splitToks sep ts = p :: r) (hx : p.head? = some x) : ts.head? = some x := by
  cases ts with
  | nil =>
    simp only [splitToks, List.cons.injEq] at h
    rw [← h.1] at hx
    simp at hx
  | cons t ts =>
    unfold splitToks at h
    by_cases ht : t = Tok.lit sep
    · simp only [ht, if_true, List.cons.injEq] at h
      rw [← h.1] at hx
      simp at hx
    · simp only [ht, if_false] at h
      cases hs : splitToks sep ts with
      | nil =>
        simp only [hs, List.cons.injEq] at h
        rw [← h.1] at hx
        simpa using hx
      | cons q r2 =>
        simp only [hs, List.cons.injEq] at h
        rw [← h.1] at hx
        simpa using hx

theorem RevOK_splitToks (sep : Nat) (toks : List Tok) (hok : RevOK toks) :
    ∀ p ∈ splitToks sep toks, RevOK p := by
  induction toks with
  | nil =>
    intro p hp
    simp only [splitToks, List.mem_singleton] at hp
    subst hp
    trivial
  | cons t ts ih =>
    obtain ⟨hhead, htail⟩ := hok
    intro p hp
    unfold splitToks at hp
    by_cases ht : t = Tok.lit sep
    · simp only [ht, if_true, List.mem_cons] at hp
      rcases hp with hp | hp
      · subst hp; trivial
      · exact ih htail p hp
    · simp only [ht, if_false] at hp
      cases hs : splitToks sep ts with
      | nil =>
        simp only [hs, List.mem_singleton] at hp
        subst hp
        exact ⟨fun _ h2 => (by simp at h2), trivial⟩
      | cons q r =>
        simp only [hs, List.mem_cons] at hp
        rcases hp with hp | hp
        · subst hp
          refine ⟨fun e hq => ?_, ih htail q (by simp [hs])⟩
          exact hhead e (splitToks_head sep ts q r _ hs hq)
        · exact ih htail p (by simp [hs, hp])

theorem sep_not_in_token (i : Esc) : 44 ∉ i.token ∧ 61 ∉ i.token := by
  cases i <;> decide

/-- The reverse substitution of a piece of a forward-substituted key gives the same string
in every visiting order. -/
theorem unescapeTag_piece (p : List Tok) (hok : RevOK p)
    (rev rev2 : List (Bytes × replaceescaped)) (hrev : rev.Perm escapes)
    (hrev2 : rev2.Perm escapes) :
    unescapeTag rev (renderR (fun _ => false) p)
      = unescapeTag rev2 (renderR (fun _ => false) p) := by
  rw [unescapeTag_perm p hok rev hrev, unescapeTag_perm p hok rev2 hrev2]

theorem tagsLoop_any_order (revs revs2 : Nat → List (Bytes × replaceescaped))
    (hrevs : ∀ i, (revs i).Perm escapes) (hrevs2 : ∀ i, (revs2 i).Perm escapes)
    (segs : List Bytes) :
    (∀ seg ∈ segs, ∃ p, RevOK p ∧ seg = renderR (fun _ => false) p) →
    ∀ (i : Nat) (tags : List (Bytes × Bytes)),
      tagsLoop revs i segs tags = tagsLoop revs2 i segs tags := by
  induction segs with
  | nil => intro _ i tags; rfl
  | cons seg rest ih =>
    intro h i tags
    obtain ⟨p, hp, rfl⟩ := h seg (List.mem_cons_self _ _)
    have hrest := ih (fun s hs => h s (List.mem_cons_of_mem _ hs))
    have hsplit := Split_render 61 (fun j => (sep_not_in_token j).2) p
    have hpieces := RevOK_splitToks 61 p hp
    rw [tagsLoop, tagsLoop, hsplit]
    cases hs : splitToks 61 p with
    | nil => rfl
    | cons k r =>
      cases r with
      | nil => rfl
      | cons v r2 =>
        simp only [List.map_cons]
        have hv : RevOK v := hpieces v (by simp [hs])
        rw [unescapeTag_piece v hv (revs i) (revs2 i) (hrevs i) (hrevs2 i)]
        exact hrest (i + 1) _

/-! ## Keys of measurements with a schema -/

/-- The key `m,k1=e(v1),...,kn=e(vn)` of a measurement with a schema parses into m and the
tags ki -> vi, for either reader and every visiting order of the escapes table. -/
theorem parsekey_buildKey (eng : Engine) (measurements : List (Bytes × measurementFields))
    (fwd : List (Bytes × replaceescaped)) (revs : Nat → List (Bytes × replaceescaped))
    (m : Bytes) (tags : List (Bytes × Bytes))
    (hfwd : fwd.Perm escapes) (hrevs : ∀ i, (revs i).Perm escapes)
    (hknown : mapGet measurements m ≠ none)
    (hm : PlainName m)
    (hkeys : ∀ t ∈ tags, PlainName t.1)
    (hvals : ∀ t ∈ tags, 92 ∉ t.2 ∧ hasSect t.2 = false)
    (hdistinct : (tags.map Prod.fst).Nodup) :
    parsekey eng measurements fwd revs (buildKey m tags) = .parsed m tags := by
  have hok : FwdOK (keyToks m tags) :=
    FwdOK_of_no_backslash _
      (keyToks_no_backslash m tags hm.2.2.1 (fun t ht => ⟨(hkeys t ht).2.2.1, (hvals t ht).1⟩))
  have hesc : escapeName fwd (buildKey m tags)
      = m ++ ((tags.map (fun t => t.1 ++ 61 :: renderR (fun _ => false) (valueToks t.2))).map
          (fun seg => 44 :: seg)).flatten := by
    rw [buildKey_eq_render, escapeName_perm _ hok fwd hfwd, renderF_keyToks]
    congr 2
    rw [List.map_map]
    congr 1
    funext t
    simp [renderF_true_eq_renderR_false]
  have hsegs : ∀ seg ∈ tags.map (fun t => t.1 ++ 61 :: renderR (fun _ => false) (valueToks t.2)),
      44 ∉ seg := by
    intro seg hseg
    obtain ⟨t, ht, rfl⟩ := List.mem_map.mp hseg
    have hplain : 44 ∉ renderR (fun _ => false) (valueToks t.2) :=
      not_mem_of_escOf_none 44 _ (by decide) (sentinel_form_plain t.2)
    simp only [List.mem_append, List.mem_cons, not_or]
    exact ⟨(hkeys t ht).1, by omega, hplain⟩
  have hsplit := Split_segments _ hsegs m hm.1
  have hloop := tagsLoop_segments revs hrevs tags
    (fun t ht => ⟨(hkeys t ht).2.1, (hvals t ht).2⟩) 1 []
  rw [foldl_mapSet_distinct tags [] (by simpa [mapKeys] using hdistinct)] at hloop
  unfold parsekey
  rw [hesc, hsplit]
  cases hget : mapGet measurements m with
  | none => exact absurd hget hknown
  | some mf =>
    simp only [List.headD_cons, List.tail_cons, hget]
    rw [hloop]
    simp

/-! ## The shard iterator -/

theorem readsWith_view (reader : Run) :
    ReadsWith
      (match reader with
        | ⟨sent, .failed⟩ => ⟨sent, .fatal⟩
        | r => r)
      reader := by
  obtain ⟨sent, e⟩ := reader
  cases e <;> exact ⟨rfl, rfl⟩

theorem shardRun_b1 (codecs : Codecs) (orders : Bytes → Bytes → KeyOrders)
    (dbname rpname sfname : Bytes) (tx : Shard) (h : dispatch (shardEngine tx) = .b1) :
    ReadsWith (shardRun codecs orders dbname rpname (sfname, some tx))
      (getb1points codecs tx dbname rpname (orders sfname)) := by
  simp only [shardRun, h]
  exact readsWith_view _

theorem shardRun_bz1 (codecs : Codecs) (orders : Bytes → Bytes → KeyOrders)
    (dbname rpname sfname : Bytes) (tx : Shard) (h : dispatch (shardEngine tx) = .bz1) :
    ReadsWith (shardRun codecs orders dbname rpname (sfname, some tx))
      (getbz1points codecs tx dbname rpname (orders sfname)) := by
  simp only [shardRun, h]
  exact readsWith_view _

/-! ## The claims -/

/-- C1: field decoder round trip. For a schema with pairwise distinct non-zero ids and records
that assign type-matching values (64-bit pattern, signed 64-bit integer, boolean, string of at
most 65532 bytes) to fields of the schema with pairwise distinct names, `getfields` applied to
the concatenated frames returns without error a map that holds, under every name, exactly the
value assigned to the field of that name (and nothing under any other name). -/
theorem getfields_roundtrip (mname : Bytes) (m : measurementFields)
    (recs : List (field × Value))
    (hids : (m.Fields.map (fun e => e.2.ID)).Nodup)
    (hnz : ∀ e ∈ m.Fields, e.2.ID ≠ 0)
    (hrecs : ∀ r ∈ recs, IsRecord m 65532 r)
    (hdistinct : (recs.map (fun r => r.1.Name)).Nodup) :
    ∃ ret, getfields mname m (frames recs) = .ok ret ∧
      ∀ name, mapGet ret name = (recs.find? (fun r => r.1.Name = name)).map Prod.snd := by
  refine ⟨assign [] recs, ?_, ?_⟩
  · have h := getfieldsLoop_frames m [] (by intro c t h; cases h) recs
      (by
        intro r hr
        obtain ⟨hmem, htyp, hfit⟩ := hrecs r hr
        refine ⟨findField_of_mem m r.1 hids hmem, ?_, htyp, hfit⟩
        obtain ⟨e, he, hef⟩ := List.mem_map.mp hmem
        exact hef ▸ hnz e he)
      (frames recs).length [] 0 (length_le_frames recs)
    simpa [getfields] using h
  · intro name
    rw [mapGet_assign recs hdistinct [] name]
    cases recs.find? (fun r => decide (r.1.Name = name)) <;> simp [mapGet]

/-- C1, the example {f1: 3.14, f2: -5, f3: true, f4: "hi"}: the frames are the expected
25 bytes and decode to the four values. -/
theorem getfields_roundtrip_witness :
    frames exampleRecords
      = [1, 64, 9, 30, 184, 81, 235, 133, 31, 2, 255, 255, 255, 255, 255, 255, 255, 251,
         3, 1, 4, 0, 2, 104, 105]
    ∧ getfields (str "m") exampleSchema (frames exampleRecords)
      = .ok [ (str "f1", .Float 4614253070214989087), (str "f2", .Integer (-5)),
              (str "f3", .Boolean true), (str "f4", .String (str "hi")) ]
    ∧ ∃ ret, getfields (str "m") exampleSchema (frames exampleRecords) = .ok ret ∧
        ∀ name, mapGet ret name
          = (exampleRecords.find? (fun r => r.1.Name = name)).map Prod.snd :=
  ⟨by decide, by decide,
    getfields_roundtrip (str "m") exampleSchema exampleRecords (by decide) (by decide)
      (by
        intro r hr
        simp only [exampleRecords, List.mem_cons, List.mem_singleton, List.not_mem_nil,
          or_false] at hr
        rcases hr with rfl | rfl | rfl | rfl
        · exact ⟨by decide, rfl, by simp [Value.fits]⟩
        · exact ⟨by decide, rfl, by simp [Value.fits]⟩
        · exact ⟨by decide, rfl, trivial⟩
        · exact ⟨by decide, rfl, by simp [Value.fits, str, utf8]⟩)
      (by decide)⟩

/-- C2: a truncated record is not reported as an error. A truncated Float, Integer, Boolean
or String header with no String record before it ends in an unrecovered panic, and so does a
truncated record that leaves fewer than three bytes after a String record; only a truncated
record with at least three bytes left after a String record, or a String body that is too
short, comes back as an error. -/
theorem getfields_truncated_crash :
    getfields (str "m") exampleSchema [1, 0, 0] = .crash
    ∧ getfields (str "m") exampleSchema [2, 0, 0, 0, 0, 0, 0, 0] = .crash
    ∧ getfields (str "m") exampleSchema [3] = .crash
    ∧ getfields (str "m") exampleSchema [4, 0] = .crash
    ∧ getfields (str "m") exampleSchema [4, 0, 1, 65, 3] = .crash
    ∧ getfields (str "m") exampleSchema [4, 0, 1, 65, 1, 0, 0] = .error [(str "f4", .String [65])]
    ∧ getfields (str "m") exampleSchema [4, 0, 5, 65] = .error [] :=
  ⟨by decide, by decide, by decide, by decide, by decide, by decide, by decide⟩

/-- C3: a String record whose declared length is 65533 does not decode: `size+3` wraps to 0
in 16-bit arithmetic, the slice expression `b[3:0]` panics, and the call returns an error
with an empty map, whatever the 65533 bytes are. -/
theorem getfields_string_length_wraps :
    getfields (str "m") exampleSchema (4 :: 255 :: 253 :: List.replicate 65533 65)
      = .error [] :=
  getfields_length_65533 _

/-- C4, the input on which the claim as stated fails: a schema whose only field has id 0 (its
ids are pairwise distinct) and the frame of one record of that field: the call ends in
log.Fatalf (line 174) instead of returning a map. -/
theorem getfields_id_zero_fatal :
    (([(str "z", (⟨0, str "z", .Boolean⟩ : field))].map (fun e => e.2.ID)).Nodup)
    ∧ frames [(⟨0, str "z", .Boolean⟩, .Boolean true)] = [0, 1]
    ∧ getfields (str "m") ⟨[(str "z", ⟨0, str "z", .Boolean⟩)]⟩ [0, 1] = .fatal := by
  decide

/-- C4 (amended): soft end of record. For a schema with pairwise distinct non-zero ids, a
payload made of the frames of records of the schema (strings of at most 65532 bytes) followed
by a rest that is empty or starts with a byte that is no field id of the schema decodes
without error to exactly the map built from the records; the rest is ignored. In particular
the empty payload and a payload whose first byte is an unknown id give the empty map. -/
theorem getfields_soft_end (mname : Bytes) (m : measurementFields)
    (recs : List (field × Value)) (rest : Bytes)
    (hids : (m.Fields.map (fun e => e.2.ID)).Nodup)
    (hnz : ∀ e ∈ m.Fields, e.2.ID ≠ 0)
    (hrecs : ∀ r ∈ recs, IsRecord m 65532 r)
    (hrest : ∀ c t, rest = c :: t → ∀ e ∈ m.Fields, e.2.ID ≠ c) :
    getfields mname m (frames recs ++ rest) = .ok (assign [] recs)
    ∧ getfields mname m [] = .ok []
    ∧ getfields mname m rest = .ok [] := by
  have hsoft : ∀ c t, rest = c :: t → findField m c = none := fun c t h =>
    findField_none_of_unknown m c (hrest c t h)
  have hmain : ∀ recs2 : List (field × Value), (∀ r ∈ recs2, IsRecord m 65532 r) →
      getfields mname m (frames recs2 ++ rest) = .ok (assign [] recs2) := by
    intro recs2 h2
    have h := getfieldsLoop_frames m rest hsoft recs2
      (by
        intro r hr
        obtain ⟨hmem, htyp, hfit⟩ := h2 r hr
        refine ⟨findField_of_mem m r.1 hids hmem, ?_, htyp, hfit⟩
        obtain ⟨e, he, hef⟩ := List.mem_map.mp hmem
        exact hef ▸ hnz e he)
      (frames recs2 ++ rest).length [] 0
      (by
        have := length_le_frames recs2
        simp only [List.length_append]
        omega)
    simpa [getfields] using h
  refine ⟨hmain recs hrecs, ?_, ?_⟩
  · simp [getfields, getfieldsLoop]
  · simpa [frames, assign] using hmain [] (by simp)

/-- C4 (amended), an instance: the frames of the example records followed by the bytes
9, 1, 2 (9 is no field id of the example schema). -/
theorem getfields_soft_end_witness :
    getfields (str "m") exampleSchema (frames exampleRecords ++ [9, 1, 2])
      = .ok (assign [] exampleRecords)
    ∧ getfields (str "m") exampleSchema [] = .ok []
    ∧ getfields (str "m") exampleSchema [9, 1, 2] = .ok [] :=
  getfields_soft_end (str "m") exampleSchema exampleRecords [9, 1, 2] (by decide) (by decide)
    (by
      intro r hr
      simp only [exampleRecords, List.mem_cons, List.mem_singleton, List.not_mem_nil,
        or_false] at hr
      rcases hr with rfl | rfl | rfl | rfl
      · exact ⟨by decide, rfl, by simp [Value.fits]⟩
      · exact ⟨by decide, rfl, by simp [Value.fits]⟩
      · exact ⟨by decide, rfl, trivial⟩
      · exact ⟨by decide, rfl, by simp [Value.fits, str, utf8]⟩)
    (by
      intro c t h
      simp only [List.cons.injEq] at h
      obtain ⟨rfl, _⟩ := h
      decide)

/-- C5, the input on which the claim as stated fails: a schema map whose entry under the key
x holds a field named y. The decoded map has the key y, which is no key of the schema map. -/
theorem getfields_key_not_in_schema :
    getfields (str "m") ⟨[(str "x", ⟨1, str "y", .Float⟩)]⟩ [1, 0, 0, 0, 0, 0, 0, 0, 0]
      = .ok [(str "y", .Float 0)]
    ∧ mapGet [(str "y", Value.Float 0)] (str "y") = some (.Float 0)
    ∧ str "y" ∉ mapKeys [(str "x", (⟨1, str "y", .Float⟩ : field))] := by
  decide

/-- C5 (amended): decoded fields respect the schema. For a schema map whose entries are
stored under their own field name (as `UnmarshalBinary` builds it), every key of a map that
`getfields` returns (with or without an error) is a key of the schema map, and the variant of
the value under it is the type the schema records for that key. -/
theorem getfields_respects_schema (mname : Bytes) (m : measurementFields) (b : Bytes)
    (ret : FieldMap)
    (hkeys : (mapKeys m.Fields).Nodup)
    (hkeyed : ∀ e ∈ m.Fields, e.2.Name = e.1)
    (hret : getfields mname m b = .ok ret ∨ getfields mname m b = .error ret) :
    ∀ k v, mapGet ret k = some v →
      k ∈ mapKeys m.Fields ∧ ∃ f, mapGet m.Fields k = some f ∧ v.typ = f.Typ := by
  intro k v hkv
  have hmem := mem_of_mapGet ret k v hkv
  obtain ⟨f, hf, hname, htyp⟩ :=
    getfieldsLoop_entries m b.length b [] 0 ret hret (by simp) (k, v) hmem
  obtain ⟨e, he, hef⟩ := List.mem_map.mp hf
  have hk : e.1 = k := by rw [← hkeyed e he, hef]; exact hname
  have hin : (k, f) ∈ m.Fields := by
    have : e = (k, f) := by
      obtain ⟨e1, e2⟩ := e
      simp only at hk hef
      rw [hk, hef]
    exact this ▸ he
  exact ⟨List.mem_map.mpr ⟨(k, f), hin, rfl⟩, f, mapGet_of_mem m.Fields k f hkeys hin, htyp⟩

/-- C5 (amended), an instance: the example schema and the frames of the example records; the
value decoded under f2 is an Integer, which is the type the schema records for the key f2. -/
theorem getfields_respects_schema_witness :
    (mapKeys exampleSchema.Fields).Nodup
    ∧ getfields (str "m") exampleSchema (frames exampleRecords)
      = .ok [ (str "f1", .Float 4614253070214989087), (str "f2", .Integer (-5)),
              (str "f3", .Boolean true), (str "f4", .String (str "hi")) ]
    ∧ (str "f2" ∈ mapKeys exampleSchema.Fields
        ∧ ∃ f, mapGet exampleSchema.Fields (str "f2") = some f
            ∧ (Value.Integer (-5)).typ = f.Typ) :=
  ⟨by decide, getfields_example,
    getfields_respects_schema (str "m") exampleSchema (frames exampleRecords) _
      (by decide) (by decide) (Or.inl getfields_example) (str "f2") (.Integer (-5)) (by decide)⟩

/-- C6, the inputs on which the claim as stated fails: the key `cpu,host=a\,b` in a shard
whose schema map has no measurement cpu is parsed into no tag map, the b1 reader passes the
bucket over (lines 390-391) and the bz1 reader ends the process (lines 465-466); and the b1
bucket named wal is passed over by the guard of line 383 even when a measurement wal has a
schema. -/
theorem parsekey_without_schema :
    buildKey (str "cpu") [(str "host", str "a,b")] = str "cpu,host=a\\,b"
    ∧ parsekey .b1 [] escapes (fun _ => escapes) (str "cpu,host=a\\,b") = .skipped (str "cpu")
    ∧ parsekey .bz1 [] escapes (fun _ => escapes) (str "cpu,host=a\\,b") = .fatal (str "cpu")
    ∧ b1Bucket [] (str "db") (str "rp") (fun _ => tableOrders)
        (str "cpu,host=a\\,b", [(bePut 8 100, 1 :: bePut 8 7)])
      = ⟨[], .done⟩
    ∧ bz1Series exampleCodecs [] (str "db") (str "rp") (fun _ => tableOrders)
        (str "cpu,host=a\\,b", some [])
      = ⟨[], .fatal⟩
    ∧ buildKey (str "wal") [] = str "wal"
    ∧ b1Bucket [(str "wal", exampleBz1Schema)] (str "db") (str "rp") (fun _ => tableOrders)
        (str "wal", [(bePut 8 100, 1 :: bePut 8 7)])
      = ⟨[], .done⟩ := by
  decide

/-- C6 (amended): measurement-key parsing with escaped delimiters, for a measurement that has
a schema. For a measurement name m with the schema mf in the schema map of the shard and a tag
list with pairwise distinct keys, where m and the keys hold none of `,` `=` backslash or the
section sign and the values hold no backslash and no section sign, and for every visiting
order of the escapes table in the forward loop and in each reverse loop: both readers parse
the key `m,k1=e(v1),...,kn=e(vn)` into measurement m and exactly the tags ki -> vi; the b1
reader, for a bucket of that name other than fields, series, meta and wal, builds the points
of its batch with m, these tags and mf; and the bz1 reader does so for every block of the
child bucket under that key. -/
theorem readers_parse_escaped_key (codecs : Codecs)
    (measurements : List (Bytes × measurementFields)) (mf : measurementFields)
    (dbname rpname : Bytes) (orders : Bytes → KeyOrders)
    (fwd : List (Bytes × replaceescaped)) (revs : Nat → List (Bytes × replaceescaped))
    (m : Bytes) (tags : List (Bytes × Bytes)) (b : Bucket)
    (horders : orders (buildKey m tags) = (fwd, revs))
    (hfwd : fwd.Perm escapes) (hrevs : ∀ i, (revs i).Perm escapes)
    (hknown : mapGet measurements m = some mf)
    (hm : PlainName m)
    (hkeys : ∀ t ∈ tags, PlainName t.1)
    (hvals : ∀ t ∈ tags, 92 ∉ t.2 ∧ hasSect t.2 = false)
    (hdistinct : (tags.map Prod.fst).Nodup) :
    (∀ eng, parsekey eng measurements fwd revs (buildKey m tags) = .parsed m tags)
    ∧ (buildKey m tags ≠ str "fields" → buildKey m tags ≠ str "series" →
        buildKey m tags ≠ str "meta" → buildKey m tags ≠ str "wal" →
        b1Bucket measurements dbname rpname orders (buildKey m tags, b)
          = match b1Entries m tags mf b [] with
            | .points points => ⟨[⟨dbname, rpname, points⟩], .done⟩
            | .stopped e => ⟨[], e⟩)
    ∧ bz1Series codecs measurements dbname rpname orders (buildKey m tags, some b)
        = runEach (bz1Block codecs m tags mf dbname rpname) b := by
  have hparse : ∀ eng, parsekey eng measurements fwd revs (buildKey m tags) = .parsed m tags :=
    fun eng => parsekey_buildKey eng measurements fwd revs m tags hfwd hrevs
      (by rw [hknown]; simp) hm hkeys hvals hdistinct
  refine ⟨hparse, ?_, ?_⟩
  · intro h1 h2 h3 h4
    simp only [b1Bucket, h1, h2, h3, h4, or_self, if_false, horders, hparse, hknown]
  · simp only [bz1Series, horders, hparse, hknown]

/-- C6 (amended), in a shard that holds a schema for cpu: the key built from cpu,
host = `a,b`, region = `us east` is `cpu,host=a\,b,region=us\ east` and both readers parse it
into cpu and the two tags and read the entries of the bucket with them; the key of the claim,
`cpu,host=a\,b,region=us east`, whose space is not escaped, parses into the same. -/
theorem readers_parse_escaped_key_witness :
    buildKey (str "cpu") [(str "host", str "a,b"), (str "region", str "us east")]
      = str "cpu,host=a\\,b,region=us\\ east"
    ∧ ((∀ eng, parsekey eng [(str "cpu", exampleBz1Schema)] escapes (fun _ => escapes)
          (buildKey (str "cpu") [(str "host", str "a,b"), (str "region", str "us east")])
        = .parsed (str "cpu") [(str "host", str "a,b"), (str "region", str "us east")])
      ∧ (buildKey (str "cpu") [(str "host", str "a,b"), (str "region", str "us east")]
            ≠ str "fields" →
          buildKey (str "cpu") [(str "host", str "a,b"), (str "region", str "us east")]
            ≠ str "series" →
          buildKey (str "cpu") [(str "host", str "a,b"), (str "region", str "us east")]
            ≠ str "meta" →
          buildKey (str "cpu") [(str "host", str "a,b"), (str "region", str "us east")]
            ≠ str "wal" →
          b1Bucket [(str "cpu", exampleBz1Schema)] (str "db") (str "rp") (fun _ => tableOrders)
            (buildKey (str "cpu") [(str "host", str "a,b"), (str "region", str "us east")],
              [(bePut 8 100, 1 :: bePut 8 7)])
          = match b1Entries (str "cpu") [(str "host", str "a,b"), (str "region", str "us east")]
              exampleBz1Schema [(bePut 8 100, 1 :: bePut 8 7)] [] with
            | .points points => ⟨[⟨str "db", str "rp", points⟩], .done⟩
            | .stopped e => ⟨[], e⟩)
      ∧ bz1Series exampleCodecs [(str "cpu", exampleBz1Schema)] (str "db") (str "rp")
          (fun _ => tableOrders)
          (buildKey (str "cpu") [(str "host", str "a,b"), (str "region", str "us east")],
            some [(bePut 8 100, 1 :: bePut 8 7)])
        = runEach (bz1Block exampleCodecs (str "cpu")
            [(str "host", str "a,b"), (str "region", str "us east")] exampleBz1Schema (str "db")
            (str "rp")) [(bePut 8 100, 1 :: bePut 8 7)])
    ∧ b1Bucket [(str "cpu", exampleBz1Schema)] (str "db") (str "rp") (fun _ => tableOrders)
        (str "cpu,host=a\\,b,region=us\\ east", [(bePut 8 100, 1 :: bePut 8 7)])
      = ⟨[⟨str "db", str "rp",
            [⟨str "cpu", 100, [(str "host", str "a,b"), (str "region", str "us east")],
              [(str "v", .Integer 7)]⟩]⟩], .done⟩
    ∧ parsekey .b1 [(str "cpu", exampleBz1Schema)] escapes (fun _ => escapes)
        (str "cpu,host=a\\,b,region=us east")
      = .parsed (str "cpu") [(str "host", str "a,b"), (str "region", str "us east")]
    ∧ parsekey .bz1 [(str "cpu", exampleBz1Schema)] escapes (fun _ => escapes)
        (str "cpu,host=a\\,b,region=us east")
      = .parsed (str "cpu") [(str "host", str "a,b"), (str "region", str "us east")] :=
  ⟨by decide,
   readers_parse_escaped_key exampleCodecs [(str "cpu", exampleBz1Schema)] exampleBz1Schema
      (str "db") (str "rp") (fun _ => tableOrders) escapes (fun _ => escapes)
      (str "cpu") [(str "host", str "a,b"), (str "region", str "us east")]
      [(bePut 8 100, 1 :: bePut 8 7)] rfl
      (List.Perm.refl _) (fun _ => List.Perm.refl _) (by decide)
      ⟨by decide, by decide, by decide, by decide⟩
      (by
        intro t ht
        simp only [List.mem_cons, List.mem_singleton, List.not_mem_nil, or_false] at ht
        rcases ht with rfl | rfl <;> exact ⟨by decide, by decide, by decide, by decide⟩)
      (by
        intro t ht
        simp only [List.mem_cons, List.mem_singleton, List.not_mem_nil, or_false] at ht
        rcases ht with rfl | rfl <;> exact ⟨by decide, by decide⟩)
      (by decide),
   by decide, by decide, by decide⟩

/-- C7, the input on which the claim as stated fails: the value `§_§a,` holds none of the four
sentinels, yet the pipeline returns `,_§a§`: the sentinel that replaces the escaped comma
completes the sentinel-like text before it, and the reverse substitution replaces the
leftmost occurrence. -/
theorem roundTrip_partial_sentinel :
    (escapes.all (fun e => !containsBytes (str "§_§a,") e.2.newtoken)) = true
    ∧ escapeValue (str "§_§a,") = str "§_§a\\,"
    ∧ escapeName escapes (escapeValue (str "§_§a,")) = str "§_§a§_§a§"
    ∧ roundTrip escapes escapes (str "§_§a,") = str ",_§a§"
    ∧ roundTrip escapes escapes (str "§_§a,") ≠ str "§_§a," := by
  decide

/-- C7 (amended): the escape codec law for values without a section sign. For every
tag-value string s that holds no section sign (the byte pair 0xC2 0xA7), in every visiting
order of the escapes table in the forward and in the reverse loop: the forward-substituted
escaped form of s holds no `,` and no `=`, so that splitting on either yields one piece, and
the pipeline gives back exactly s. -/
theorem roundTrip_no_sect (s : Bytes) (fwd rev : List (Bytes × replaceescaped))
    (hsect : hasSect s = false) (hfwd : fwd.Perm escapes) (hrev : rev.Perm escapes) :
    Split (escapeName fwd (escapeValue s)) 44 = [escapeName fwd (escapeValue s)]
    ∧ Split (escapeName fwd (escapeValue s)) 61 = [escapeName fwd (escapeValue s)]
    ∧ roundTrip fwd rev s = s := by
  obtain ⟨h1, h2⟩ := unescape_escape_value s hsect fwd rev hfwd hrev
  have h44 : 44 ∉ renderR (fun _ => false) (valueToks s) :=
    not_mem_of_escOf_none 44 _ (by decide) (sentinel_form_plain s)
  have h61 : 61 ∉ renderR (fun _ => false) (valueToks s) :=
    not_mem_of_escOf_none 61 _ (by decide) (sentinel_form_plain s)
  have hs44 := Split_of_not_mem _ 44 h44
  have hs61 := Split_of_not_mem _ 61 h61
  refine ⟨by rw [h1]; exact hs44, by rw [h1]; exact hs61, ?_⟩
  unfold roundTrip
  rw [h1, hs44]
  simp only [Join]
  rw [hs61]
  simp only [Join]
  exact h2

/-- C7 (amended), an instance: the value `a,b "c"=d \e`, with all four characters and a
backslash of its own. -/
theorem roundTrip_no_sect_witness :
    escapeValue (str "a,b \"c\"=d \\e") = str "a\\,b\\ \\\"c\\\"\\=d\\ \\e"
    ∧ Split (escapeName escapes (escapeValue (str "a,b \"c\"=d \\e"))) 44
        = [escapeName escapes (escapeValue (str "a,b \"c\"=d \\e"))]
    ∧ Split (escapeName escapes (escapeValue (str "a,b \"c\"=d \\e"))) 61
        = [escapeName escapes (escapeValue (str "a,b \"c\"=d \\e"))]
    ∧ roundTrip escapes escapes (str "a,b \"c\"=d \\e") = str "a,b \"c\"=d \\e" :=
  ⟨by decide,
   roundTrip_no_sect (str "a,b \"c\"=d \\e") escapes escapes (by decide) (List.Perm.refl _)
     (List.Perm.refl _)⟩

/-- C8: a key with a tag segment that holds no `=` is not rejected with an error. For every
key of a known measurement that has, after the forward substitution and the split on commas,
a tag segment without `=`, both readers end in the unrecovered index-out-of-range panic of
`ts[1]` (lines 396 and 471), in every visiting order of the escapes table. -/
theorem parsekey_bad_key_crash (eng : Engine) (measurements : List (Bytes × measurementFields))
    (fwd : List (Bytes × replaceescaped)) (revs : Nat → List (Bytes × replaceescaped))
    (bname : Bytes)
    (hknown : mapGet measurements ((Split (escapeName fwd bname) 44).headD []) ≠ none)
    (hbad : ∃ seg ∈ (Split (escapeName fwd bname) 44).tail, 61 ∉ seg) :
    parsekey eng measurements fwd revs bname = .crash := by
  unfold parsekey
  cases hm : mapGet measurements ((Split (escapeName fwd bname) 44).headD []) with
  | none => exact absurd hm hknown
  | some mf => simp only [hm, tagsLoop_bad_segment revs _ hbad]

/-- C8, the key `cpu,host` in a shard that holds a schema for cpu: both readers crash. -/
theorem parsekey_bad_key_crash_witness :
    parsekey .b1 [(str "cpu", exampleSchema)] escapes (fun _ => escapes) (str "cpu,host")
      = .crash
    ∧ parsekey .bz1 [(str "cpu", exampleSchema)] escapes (fun _ => escapes) (str "cpu,host")
      = .crash :=
  ⟨parsekey_bad_key_crash .b1 [(str "cpu", exampleSchema)] escapes (fun _ => escapes)
      (str "cpu,host") (by decide) ⟨str "host", by decide, by decide⟩,
   parsekey_bad_key_crash .bz1 [(str "cpu", exampleSchema)] escapes (fun _ => escapes)
      (str "cpu,host") (by decide) ⟨str "host", by decide, by decide⟩⟩

/-- C9: DropDatabase is not a filter. On a non-empty catalog `applycommand` returns
`len(dbs)-1` zero-valued databases followed by the databases whose name differs from the
dropped one, each reduced to its name (policy list and default policy are lost); the log
[CreateDatabase(a), CreateDatabase(b), DropDatabase(a)] replays to two entries, an unnamed
database and b. -/
theorem applycommand_dropDatabase (dbs : List Database) (n : Bytes) :
    applycommand dbs (some (.DropDatabase n))
      = (if 0 < dbs.length then
          List.replicate (dbs.length - 1) zeroDatabase
            ++ (dbs.filter (fun db => decide (db.Name ≠ n))).map
                (fun db => (⟨db.Name, [], []⟩ : Database))
        else dbs)
    ∧ replay [some (.CreateDatabase (str "a")), some (.CreateDatabase (str "b")),
        some (.DropDatabase (str "a"))]
      = [⟨[], [], []⟩, ⟨str "b", [], []⟩]
    ∧ applycommand [⟨str "b", [⟨str "rp", 3600, 1⟩], str "rp"⟩] (some (.DropDatabase (str "a")))
      = [⟨str "b", [], []⟩] := by
  refine ⟨?_, by decide, by decide⟩
  simp only [applycommand, dropDatabase]
  split
  · exact dropDatabase_loop n dbs _
  · rfl

/-- C10: DropRetentionPolicy is not a filter. The first database named d gets, for a
non-empty policy list of length len, a list of `len-1` zero-valued policies followed (when the
dropped name is not empty) by `len-1` more: every policy it had is lost, the dropped one and
the others alike. Dropping p1 from d with policies [p1, p2] leaves two unnamed policies. -/
theorem applycommand_dropRetentionPolicy (d n : Bytes) (db : Database) (rest : List Database)
    (policies : List RetentionPolicy) :
    dropPolicies policies n
      = (if 0 < policies.length then
          List.replicate (policies.length - 1) zeroRetentionPolicy
            ++ (if n = [] then [] else List.replicate (policies.length - 1) zeroRetentionPolicy)
        else policies)
    ∧ applycommand (⟨d, db.Policies, db.DefaultRetentionPolicy⟩ :: rest)
        (some (.DropRetentionPolicy d n))
      = ⟨d, dropPolicies db.Policies n, db.DefaultRetentionPolicy⟩ :: rest
    ∧ applycommand [⟨str "d", [⟨str "p1", 3600, 1⟩, ⟨str "p2", 7200, 2⟩], str "p1"⟩]
        (some (.DropRetentionPolicy (str "d") (str "p1")))
      = [⟨str "d", [⟨[], 0, 0⟩, ⟨[], 0, 0⟩], str "p1"⟩] := by
  refine ⟨?_, ?_, by decide⟩
  · simp only [dropPolicies]
    split
    · exact dropPolicies_loop n _ _
    · rfl
  · simp [applycommand, dropRetentionPolicy]

/-- C11: no internal names in the catalog. For every finite sequence of log entries
(the five commands, unknown commands, entries that do not decode) folded with `applycommand`
from the empty catalog, no database of the result and no retention policy of any of its
databases has a name that ends in `internal`. -/
theorem replay_noInternal (log : List (Option Command)) : NoInternal (replay log) :=
  foldl_applycommand_noInternal log [] (by intro db h; cases h)

/-- C12, the input on which the claim as stated fails: CreateDatabase(a) applied to a catalog
that already holds a appends a second database a, and the log [CreateDatabase(a),
CreateDatabase(a)] replays to two databases named a. -/
theorem applycommand_createDatabase_duplicate :
    applycommand [⟨str "a", [⟨str "rp", 3600, 1⟩], str "rp"⟩] (some (.CreateDatabase (str "a")))
      = [⟨str "a", [⟨str "rp", 3600, 1⟩], str "rp"⟩, ⟨str "a", [], []⟩]
    ∧ replay [some (.CreateDatabase (str "a")), some (.CreateDatabase (str "a"))]
      = [⟨str "a", [], []⟩, ⟨str "a", [], []⟩] := by
  decide

/-- C12 (amended): CreateDatabase appends without looking for duplicates. For every catalog
dbs and name n, `applycommand` returns dbs unchanged when n ends in `internal`, and otherwise
returns dbs with the database n (no policies, empty default policy) appended at the end,
whether or not dbs already holds a database named n; the number of databases named n then
grows by one. -/
theorem applycommand_createDatabase (dbs : List Database) (n : Bytes) :
    (HasSuffix n (str "internal") = true →
      applycommand dbs (some (.CreateDatabase n)) = dbs)
    ∧ (HasSuffix n (str "internal") = false →
      applycommand dbs (some (.CreateDatabase n)) = dbs ++ [⟨n, [], []⟩]
      ∧ ((applycommand dbs (some (.CreateDatabase n))).filter (fun db => db.Name = n)).length
          = (dbs.filter (fun db => db.Name = n)).length + 1) := by
  constructor
  · intro h
    simp [applycommand, h]
  · intro h
    simp [applycommand, h, List.filter_append]

/-- C12 (amended), two instances: the name `_internal` leaves the catalog [a] unchanged, the
name a is appended to the catalog [a]. -/
theorem applycommand_createDatabase_witness :
    applycommand [⟨str "a", [], []⟩] (some (.CreateDatabase (str "_internal")))
      = [⟨str "a", [], []⟩]
    ∧ applycommand [⟨str "a", [], []⟩] (some (.CreateDatabase (str "a")))
      = [⟨str "a", [], []⟩] ++ [⟨str "a", [], []⟩]
    ∧ ((applycommand [⟨str "a", [], []⟩] (some (.CreateDatabase (str "a")))).filter
          (fun db => db.Name = str "a")).length
      = ([(⟨str "a", [], []⟩ : Database)].filter (fun db => db.Name = str "a")).length + 1 :=
  ⟨(applycommand_createDatabase [⟨str "a", [], []⟩] (str "_internal")).1 (by decide),
   (applycommand_createDatabase [⟨str "a", [], []⟩] (str "a")).2 (by decide)⟩

/-- C13: catalog replay of the create and set-default commands. In a catalog whose first
database named d is db (in particular when db is the only one), CreateRetentionPolicy for d
with a policy name that does not end in `internal` appends the policy (name, duration in
nanoseconds, replica count) at the end of the policy list of db, and
SetDefaultRetentionPolicy for d sets the default policy of db; every other database and every
other member of db is unchanged. -/
theorem applycommand_policy_commands (d : Bytes) (pre post : List Database) (db : Database)
    (name : Bytes) (duration : Int) (replicaN : Nat)
    (hpre : ∀ x ∈ pre, x.Name ≠ d) (hpost : ∀ x ∈ post, x.Name ≠ d) (hdb : db.Name = d)
    (hname : HasSuffix name (str "internal") = false) :
    applycommand (pre ++ db :: post) (some (.CreateRetentionPolicy d name duration replicaN))
      = pre ++ ⟨db.Name, db.Policies ++ [⟨name, duration, replicaN⟩],
          db.DefaultRetentionPolicy⟩ :: post
    ∧ applycommand (pre ++ db :: post) (some (.SetDefaultRetentionPolicy d name))
      = pre ++ ⟨db.Name, db.Policies, name⟩ :: post := by
  have _ := hpost
  constructor
  · simp only [applycommand]
    exact createRetentionPolicy_first d ⟨name, duration, replicaN⟩ pre db post hpre hdb hname
  · simp only [applycommand]
    exact setDefaultRetentionPolicy_first d name pre db post hpre hdb

/-- C13, the replay of the claim: [CreateDatabase(db1), CreateDatabase(_internal),
CreateRetentionPolicy(db1, rp1, 3600 s, 1), SetDefaultRetentionPolicy(db1, rp1)] gives exactly
the database db1 with the policy rp1 of 3600000000000 ns and default rp1; and the theorem at
the catalog [db0, db1, db2]. -/
theorem applycommand_policy_commands_witness :
    replay [some (.CreateDatabase (str "db1")), some (.CreateDatabase (str "_internal")),
        some (.CreateRetentionPolicy (str "db1") (str "rp1") 3600000000000 1),
        some (.SetDefaultRetentionPolicy (str "db1") (str "rp1"))]
      = [⟨str "db1", [⟨str "rp1", 3600000000000, 1⟩], str "rp1"⟩]
    ∧ (applycommand ([⟨str "db0", [], []⟩] ++ ⟨str "db1", [], []⟩ :: [⟨str "db2", [], []⟩])
        (some (.CreateRetentionPolicy (str "db1") (str "rp1") 3600000000000 1))
      = [⟨str "db0", [], []⟩]
          ++ ⟨str "db1", [] ++ [⟨str "rp1", 3600000000000, 1⟩], []⟩ :: [⟨str "db2", [], []⟩]
      ∧ applycommand ([⟨str "db0", [], []⟩] ++ ⟨str "db1", [], []⟩ :: [⟨str "db2", [], []⟩])
        (some (.SetDefaultRetentionPolicy (str "db1") (str "rp1")))
      = [⟨str "db0", [], []⟩] ++ ⟨str "db1", [], str "rp1"⟩ :: [⟨str "db2", [], []⟩]) :=
  ⟨by decide,
   applycommand_policy_commands (str "db1") [⟨str "db0", [], []⟩] [⟨str "db2", [], []⟩]
     ⟨str "db1", [], []⟩ (str "rp1") 3600000000000 1 (by decide) (by decide) rfl (by decide)⟩

/-- C14: bz1 entry framing. For every list of entries (timestamp below 2^64, data shorter
than 2^32 bytes), the splitting loop of the bz1 reader, run on the concatenation of the
frames `[ts:8 BE][len:4 BE][data]`, ends and yields as many entries, in the same order, the
i-th with the timestamp ts_i in its first eight bytes and the payload data_i after its
twelve-byte header. -/
theorem splitEntries_frameEntries (es : List (Nat × Bytes))
    (h : ∀ e ∈ es, e.1 < 2 ^ 64 ∧ e.2.length < 2 ^ 32) :
    ∃ entries, splitEntries (frameEntries es).length (frameEntries es) [] = some entries
      ∧ entries.length = es.length
      ∧ entries.map (fun b => (btou64 (b.take 8), b.drop entryHeaderSize)) = es := by
  refine ⟨es.map frameEntry, ?_, by simp, ?_⟩
  · have := splitEntries_frames es (fun e he => (h e he).2) (frameEntries es).length []
      (length_le_frameEntries es)
    simpa using this
  · rw [List.map_map]
    have : ∀ e ∈ es, ((fun b => (btou64 (b.take 8), b.drop entryHeaderSize)) ∘ frameEntry) e
        = id e := fun e he => frameEntry_decode e (h e he).1
    rw [List.map_congr_left this, List.map_id]

/-- C14, the block of the claim: two entries, ts 100 with the payload 0x01 int64_be(7) and
ts 200 with 0x01 int64_be(8), after eight bytes of block metadata, read with the schema
{v: id 1 Integer} (and a decoder that returns the payload as it is): one batch with the two
points {ts 100, v 7} and {ts 200, v 8}. -/
theorem splitEntries_frameEntries_witness :
    (∃ entries,
      splitEntries (frameEntries [(100, 1 :: bePut 8 7), (200, 1 :: bePut 8 8)]).length
        (frameEntries [(100, 1 :: bePut 8 7), (200, 1 :: bePut 8 8)]) [] = some entries
      ∧ entries.length = [(100, 1 :: bePut 8 7), (200, 1 :: bePut 8 8)].length
      ∧ entries.map (fun b => (btou64 (b.take 8), b.drop entryHeaderSize))
          = [(100, 1 :: bePut 8 7), (200, 1 :: bePut 8 8)])
    ∧ bz1Block exampleCodecs (str "m") [] ⟨[(str "v", ⟨1, str "v", .Integer⟩)]⟩ (str "db")
        (str "rp")
        ([], [0, 0, 0, 0, 0, 0, 0, 0]
          ++ frameEntries [(100, 1 :: bePut 8 7), (200, 1 :: bePut 8 8)])
      = ⟨[⟨str "db", str "rp",
            [⟨str "m", 100, [], [(str "v", .Integer 7)]⟩,
             ⟨str "m", 200, [], [(str "v", .Integer 8)]⟩]⟩], .done⟩ :=
  ⟨splitEntries_frameEntries [(100, 1 :: bePut 8 7), (200, 1 :: bePut 8 8)]
      (by
        intro e he
        simp only [List.mem_cons, List.mem_singleton, List.not_mem_nil, or_false] at he
        rcases he with rfl | rfl <;> exact ⟨by norm_num, by simp [length_bePut]⟩),
   by decide⟩

/-- C15: the b1 reader does not continue past a malformed record. With the schema
{v: id 1 Integer, s: id 3 String}, the payload [3, 0, 5, 65] (a String of declared length 5
with one byte) makes `getfields` return an error; the b1 reader then ends the process at
line 412 and sends no batch, although the entry after it is well formed, while the bz1
reader, given the same two payloads in one block, leaves the entry out and sends the batch
with the other point. -/
theorem b1_malformed_entry_fatal :
    getfields (str "cpu") exampleBz1Schema [3, 0, 5, 65] = .error []
    ∧ b1Entries (str "cpu") [] exampleBz1Schema
        [(bePut 8 100, [3, 0, 5, 65]), (bePut 8 200, 1 :: bePut 8 8)] []
      = .stopped .fatal
    ∧ b1Bucket [(str "cpu", exampleBz1Schema)] (str "db") (str "rp") (fun _ => tableOrders)
        (str "cpu", [(bePut 8 100, [3, 0, 5, 65]), (bePut 8 200, 1 :: bePut 8 8)])
      = ⟨[], .fatal⟩
    ∧ bz1Block exampleCodecs (str "cpu") [] exampleBz1Schema (str "db") (str "rp")
        ([], [0, 0, 0, 0, 0, 0, 0, 0]
          ++ frameEntries [(100, [3, 0, 5, 65]), (200, 1 :: bePut 8 8)])
      = ⟨[⟨str "db", str "rp", [⟨str "cpu", 200, [], [(str "v", .Integer 8)]⟩]⟩], .done⟩ :=
  ⟨by decide, by decide, by decide, by decide⟩

/-- C16: engine dispatch. A shard without the bucket `meta`, or whose bucket `meta` has no
key `format`, or whose format is `b1`, is read by the b1 reader: what the shard iterator sends
for it is what `getb1points` sends and it ends as `getb1points` ends (an error it returns
ends the process); a shard whose format is `bz1` is read in the same way by `getbz1points`; for
every other format the switch takes its default arm and the shard ends the process with
log.Fatalf, having sent nothing: it is neither read nor passed over. -/
theorem dispatch_shardEngine (tx : Shard) (codecs : Codecs)
    (orders : Bytes → Bytes → KeyOrders) (dbname rpname sfname : Bytes) :
    (mapGet tx.buckets (str "meta") = none →
      dispatch (shardEngine tx) = .b1
      ∧ ReadsWith (shardRun codecs orders dbname rpname (sfname, some tx))
          (getb1points codecs tx dbname rpname (orders sfname)))
    ∧ (∀ mb, mapGet tx.buckets (str "meta") = some mb → mapGet mb (str "format") = none →
        dispatch (shardEngine tx) = .b1
        ∧ ReadsWith (shardRun codecs orders dbname rpname (sfname, some tx))
            (getb1points codecs tx dbname rpname (orders sfname)))
    ∧ (∀ mb v, mapGet tx.buckets (str "meta") = some mb → mapGet mb (str "format") = some v →
        (v = str "b1" →
          dispatch (shardEngine tx) = .b1
          ∧ ReadsWith (shardRun codecs orders dbname rpname (sfname, some tx))
              (getb1points codecs tx dbname rpname (orders sfname)))
        ∧ (v = str "bz1" →
          dispatch (shardEngine tx) = .bz1
          ∧ ReadsWith (shardRun codecs orders dbname rpname (sfname, some tx))
              (getbz1points codecs tx dbname rpname (orders sfname)))
        ∧ (v ≠ str "b1" → v ≠ str "bz1" →
            dispatch (shardEngine tx) = .unknownEngine v
            ∧ shardRun codecs orders dbname rpname (sfname, some tx) = ⟨[], .fatal⟩)) := by
  refine ⟨?_, ?_, ?_⟩
  · intro h
    have hd : dispatch (shardEngine tx) = .b1 := by simp [shardEngine, h, dispatch]
    exact ⟨hd, shardRun_b1 codecs orders dbname rpname sfname tx hd⟩
  · intro mb h1 h2
    have hd : dispatch (shardEngine tx) = .b1 := by simp [shardEngine, h1, h2, dispatch]
    exact ⟨hd, shardRun_b1 codecs orders dbname rpname sfname tx hd⟩
  · intro mb v h1 h2
    have he : shardEngine tx = v := by simp [shardEngine, h1, h2]
    refine ⟨?_, ?_, ?_⟩
    · intro hv
      have hd : dispatch (shardEngine tx) = .b1 := by simp [he, hv, dispatch]
      exact ⟨hd, shardRun_b1 codecs orders dbname rpname sfname tx hd⟩
    · intro hv
      have hd : dispatch (shardEngine tx) = .bz1 := by
        rw [he, hv]
        decide
      exact ⟨hd, shardRun_bz1 codecs orders dbname rpname sfname tx hd⟩
    · intro hb1 hbz1
      have hd : dispatch (shardEngine tx) = .unknownEngine v := by
        simp [he, dispatch, hb1, hbz1]
      exact ⟨hd, by simp [shardRun, hd]⟩

/-- C16, four shards: the b1 shard of the examples, which has no bucket `meta`, is read by
the b1 reader and sends its batch; a shard whose `meta` has no `format` goes to the b1 reader
(which ends the process, the shard having no bucket `fields`); the bz1 shard of the examples
is read by the bz1 reader and sends its batch of two points; a shard of format `tsm1` ends
the process. -/
theorem dispatch_shardEngine_witness :
    (dispatch (shardEngine exampleB1Shard) = .b1
      ∧ ReadsWith
          (shardRun exampleCodecs (fun _ _ => tableOrders) (str "db") (str "rp")
            (str "1", some exampleB1Shard))
          (getb1points exampleCodecs exampleB1Shard (str "db") (str "rp") (fun _ => tableOrders)))
    ∧ shardRun exampleCodecs (fun _ _ => tableOrders) (str "db") (str "rp")
        (str "1", some exampleB1Shard)
      = ⟨[⟨str "db", str "rp",
            [⟨str "cpu", 1700000000000000000, [(str "host", str "h1")],
              [(str "temp", .Float 4627307879634829312)]⟩]⟩], .done⟩
    ∧ (dispatch (shardEngine ⟨[(str "meta", [])], none⟩) = .b1
      ∧ ReadsWith
          (shardRun exampleCodecs (fun _ _ => tableOrders) (str "db") (str "rp")
            (str "1", some ⟨[(str "meta", [])], none⟩))
          (getb1points exampleCodecs ⟨[(str "meta", [])], none⟩ (str "db") (str "rp")
            (fun _ => tableOrders)))
    ∧ (dispatch (shardEngine exampleBz1Shard) = .bz1
      ∧ ReadsWith
          (shardRun exampleCodecs (fun _ _ => tableOrders) (str "db") (str "rp")
            (str "1", some exampleBz1Shard))
          (getbz1points exampleCodecs exampleBz1Shard (str "db") (str "rp")
            (fun _ => tableOrders)))
    ∧ shardRun exampleCodecs (fun _ _ => tableOrders) (str "db") (str "rp")
        (str "1", some exampleBz1Shard)
      = ⟨[⟨str "db", str "rp",
            [⟨str "cpu", 100, [], [(str "v", .Integer 7)]⟩,
             ⟨str "cpu", 200, [], [(str "v", .Integer 8)]⟩]⟩], .done⟩
    ∧ (dispatch (shardEngine ⟨[(str "meta", [(str "format", str "tsm1")])], none⟩)
        = .unknownEngine (str "tsm1")
      ∧ shardRun exampleCodecs (fun _ _ => tableOrders) (str "db") (str "rp")
          (str "1", some ⟨[(str "meta", [(str "format", str "tsm1")])], none⟩)
        = ⟨[], .fatal⟩) :=
  ⟨(dispatch_shardEngine exampleB1Shard exampleCodecs (fun _ _ => tableOrders) (str "db")
      (str "rp") (str "1")).1 (by decide),
   by decide,
   (dispatch_shardEngine ⟨[(str "meta", [])], none⟩ exampleCodecs (fun _ _ => tableOrders)
      (str "db") (str "rp") (str "1")).2.1 [] (by decide) (by decide),
   ((dispatch_shardEngine exampleBz1Shard exampleCodecs (fun _ _ => tableOrders) (str "db")
      (str "rp") (str "1")).2.2 [(str "fields", []), (str "format", str "bz1")] (str "bz1")
      (by decide) (by decide)).2.1 rfl,
   by decide,
   ((dispatch_shardEngine ⟨[(str "meta", [(str "format", str "tsm1")])], none⟩ exampleCodecs
      (fun _ _ => tableOrders) (str "db") (str "rp") (str "1")).2.2
      [(str "format", str "tsm1")] (str "tsm1") (by decide) (by decide)).2.2
      (by decide) (by decide)⟩

/-- C17: catalog before points. In the event sequence of every run of `GetPoints`, whatever
comes before a batch on the point channel starts with the databases of the replayed catalog
on the catalog channel, in catalog order, followed by the closing of that channel. -/
theorem GetPoints_catalog_first (codecs : Codecs)
    (orders : Bytes → Bytes → Bytes → Bytes → KeyOrders) (d : DataDir)
    (pre post : List Event) (bp : BatchPoints)
    (h : GetPoints codecs orders d = pre ++ .points bp :: post) :
    ∃ log mid, d.log = some log
      ∧ pre = (replay log).map Event.database ++ Event.closeDatabases :: mid := by
  unfold GetPoints at h
  cases hlog : d.log with
  | none =>
    simp only [hlog] at h
    have hmem : Event.points bp ∈ [Event.fatal] := by
      rw [h]
      simp
    simp at hmem
  | some log =>
    simp only [hlog, List.append_assoc] at h
    obtain ⟨mid, hmid⟩ := prefix_of_append_eq (Event.points bp)
      ((replay log).map Event.database ++ [Event.closeDatabases]) _ pre post
      (points_not_mem_catalog bp (replay log)) (by simpa [List.append_assoc] using h)
    exact ⟨log, mid, rfl, by simpa using hmid⟩

/-- C17, the run on the example data directory (database db1, policy rp1, one b1 shard with
the series `cpu,host=h1`): db1, the closing of the catalog channel, one batch, the closing of
the point channel. -/
theorem GetPoints_catalog_first_witness :
    GetPoints exampleCodecs (fun _ _ _ _ => tableOrders) exampleDataDir
      = [ .database ⟨str "db1", [⟨str "rp1", 3600000000000, 1⟩], []⟩, .closeDatabases,
          .points ⟨str "db1", str "rp1",
            [⟨str "cpu", 1700000000000000000, [(str "host", str "h1")],
              [(str "temp", .Float 4627307879634829312)]⟩]⟩,
          .closePoints ]
    ∧ ∃ log mid, exampleDataDir.log = some log
      ∧ [ Event.database ⟨str "db1", [⟨str "rp1", 3600000000000, 1⟩], []⟩, .closeDatabases ]
          = (replay log).map Event.database ++ Event.closeDatabases :: mid :=
  ⟨by decide,
   GetPoints_catalog_first exampleCodecs (fun _ _ _ _ => tableOrders) exampleDataDir
     [ .database ⟨str "db1", [⟨str "rp1", 3600000000000, 1⟩], []⟩, .closeDatabases ]
     [ .closePoints ]
     ⟨str "db1", str "rp1",
       [⟨str "cpu", 1700000000000000000, [(str "host", str "h1")],
         [(str "temp", .Float 4627307879634829312)]⟩]⟩
     (by decide)⟩

/-- C19: tag keys do not have their escapes resolved. For the key `m,a\ b=v` both readers
record the tag under the key `a§_§c§b`: the sentinel of the forward substitution stays in the
tag key, because the reverse substitution of lines 397-399 and 472-474 is applied to the tag
value only. -/
theorem parsekey_tag_key_sentinel :
    parsekey .b1 [(str "m", exampleSchema)] escapes (fun _ => escapes) (str "m,a\\ b=v")
      = .parsed (str "m") [(str "a§_§c§b", str "v")]
    ∧ parsekey .bz1 [(str "m", exampleSchema)] escapes (fun _ => escapes) (str "m,a\\ b=v")
      = .parsed (str "m") [(str "a§_§c§b", str "v")]
    ∧ containsBytes (str "a§_§c§b") (Esc.entry .space).2.newtoken = true
    ∧ parsekey .b1 [(str "m", exampleSchema)] escapes (fun _ => escapes) (str "m,k=a\\ b")
      = .parsed (str "m") [(str "k", str "a b")] := by
  decide

/-- C20, the input on which the claim as stated fails: the key `m,k=\,_§b\"` holds none of
the four sentinels, and the tag value the readers compute for it depends on the visiting
order of the reverse loop: `,_§b"` when the entry of the comma comes first, `§_§a"_§b§` when
the entry of the quote comes first. -/
theorem parsekey_order_dependent :
    quoteFirst.Perm escapes
    ∧ (escapes.all (fun e => !containsBytes (str "m,k=\\,_§b\\\"") e.2.newtoken)) = true
    ∧ parsekey .b1 [(str "m", exampleSchema)] escapes (fun _ => escapes)
        (str "m,k=\\,_§b\\\"")
      = .parsed (str "m") [(str "k", str ",_§b\"")]
    ∧ parsekey .b1 [(str "m", exampleSchema)] escapes (fun _ => quoteFirst)
        (str "m,k=\\,_§b\\\"")
      = .parsed (str "m") [(str "k", str "§_§a\"_§b§")]
    ∧ parsekey .bz1 [(str "m", exampleSchema)] escapes (fun _ => escapes)
        (str "m,k=\\,_§b\\\"")
      ≠ parsekey .bz1 [(str "m", exampleSchema)] escapes (fun _ => quoteFirst)
        (str "m,k=\\,_§b\\\"") := by
  decide

/-- C20 (amended): key parsing is deterministic for keys without a section sign. For every
key that holds no section sign (the byte pair 0xC2 0xA7), what a reader does with the key
(measurement name and tag map, or skip, exit, panic) is the same for any two choices of the
visiting orders of the escapes table in the forward loop and in each reverse loop. -/
theorem parsekey_any_order (eng : Engine) (measurements : List (Bytes × measurementFields))
    (key : Bytes) (fwd fwd2 : List (Bytes × replaceescaped))
    (revs revs2 : Nat → List (Bytes × replaceescaped))
    (hsect : hasSect key = false)
    (hfwd : fwd.Perm escapes) (hfwd2 : fwd2.Perm escapes)
    (hrevs : ∀ i, (revs i).Perm escapes) (hrevs2 : ∀ i, (revs2 i).Perm escapes) :
    parsekey eng measurements fwd revs key = parsekey eng measurements fwd2 revs2 key := by
  have hok := RevOK_keyTokens key hsect
  have hsplit := Split_render 44 (fun j => (sep_not_in_token j).1) (keyTokens key)
  have hsegs : ∀ seg ∈ (Split (renderR (fun _ => false) (keyTokens key)) 44).tail,
      ∃ p, RevOK p ∧ seg = renderR (fun _ => false) p := by
    intro seg hseg
    have hmem := List.mem_of_mem_tail hseg
    rw [hsplit] at hmem
    obtain ⟨p, hp, rfl⟩ := List.mem_map.mp hmem
    exact ⟨p, RevOK_splitToks 44 _ hok p hp, rfl⟩
  simp only [parsekey, escapeName_any_key key fwd hfwd, escapeName_any_key key fwd2 hfwd2,
    tagsLoop_any_order revs revs2 hrevs hrevs2 _ hsegs 1 []]

/-- C20 (amended), the key `cpu,host=a\,b,region=us\ east` with the table order and with
the quote-first order in every loop: the same measurement and tags. -/
theorem parsekey_any_order_witness :
    parsekey .b1 [(str "cpu", exampleSchema)] escapes (fun _ => escapes)
        (str "cpu,host=a\\,b,region=us\\ east")
      = parsekey .b1 [(str "cpu", exampleSchema)] quoteFirst (fun _ => quoteFirst)
        (str "cpu,host=a\\,b,region=us\\ east")
    ∧ parsekey .b1 [(str "cpu", exampleSchema)] quoteFirst (fun _ => quoteFirst)
        (str "cpu,host=a\\,b,region=us\\ east")
      = .parsed (str "cpu") [(str "host", str "a,b"), (str "region", str "us east")] :=
  ⟨parsekey_any_order .b1 [(str "cpu", exampleSchema)] (str "cpu,host=a\\,b,region=us\\ east")
      escapes quoteFirst (fun _ => escapes) (fun _ => quoteFirst) (by decide)
      (List.Perm.refl _) (by decide) (fun _ => List.Perm.refl _)
      (fun _ => (by decide : quoteFirst.Perm escapes)),
   by decide⟩

end From092
